import Mathlib

/-!
Verification development for the legal-document analysis backend.

The pipeline under study lives in `app/routes/analyze.py` (orchestrator,
Gemini analysis client, GCS persistence, status updates),
`app/services/documents.py` (document locator and text extractors) and
`app/routes/documents.py` (status reader).  External effects (credential
acquisition, HTTP calls, blob storage, PDF/DOCX libraries) are modelled by
oracle records describing the outcome of each call site; Python exceptions
are modelled by an explicit exception type threaded through `Except`.
`json.loads` is modelled by an executable recursive-descent parser over the
JSON grammar that Python's `json` module accepts (numbers keep their
fraction/exponent lexeme verbatim; the non-standard `NaN` / `Infinity`
literals that Python accepts by default are represented explicitly).
-/

namespace LegalAI

/-- Named character constants, used instead of literals for delimiter
characters. -/
def qChar : Char := Char.ofNat 34

/-- Backslash character. -/
def bsChar : Char := Char.ofNat 92

/-- Opening curly brace. -/
def obChar : Char := Char.ofNat 123

/-- Closing curly brace. -/
def cbChar : Char := Char.ofNat 125

/-- Backtick character. -/
def btChar : Char := Char.ofNat 96

/-- JSON whitespace characters, exactly the set skipped by Python's
`json` scanner (space, tab, newline, carriage return). -/
def isJsonWs (c : Char) : Bool :=
  c = ' ' || c = '\t' || c = '\n' || c = '\r'

/-- Whitespace set of Python's `str.strip()` (ASCII part). -/
def isPyWs (c : Char) : Bool :=
  c = ' ' || c = '\t' || c = '\n' || c = '\r' ||
    c = Char.ofNat 11 || c = Char.ofNat 12

/-- Drop leading JSON whitespace. -/
def skipWs (l : List Char) : List Char := l.dropWhile isJsonWs

/-- Drop leading Python whitespace. -/
def trimLeftPy (l : List Char) : List Char := l.dropWhile isPyWs

/-- Drop trailing Python whitespace. -/
def trimRightPy (l : List Char) : List Char :=
  (l.reverse.dropWhile isPyWs).reverse

/-- Model of Python `str.strip()` on a list of characters. -/
def pyStripL (l : List Char) : List Char := trimRightPy (trimLeftPy l)

/-- A list of characters has no leading and no trailing whitespace. -/
def isStrippedL (l : List Char) : Prop :=
  (∀ c, l.head? = some c → isPyWs c = false) ∧
    (∀ c, l.getLast? = some c → isPyWs c = false)

/-- ASCII decimal digit test. -/
def isDigitC (c : Char) : Bool := 48 ≤ c.toNat && c.toNat ≤ 57

/-- Numeric value of a decimal digit character. -/
def digitVal (c : Char) : Nat := c.toNat - 48

/-- Decimal digit character for a value below ten. -/
def digitChar (d : Nat) : Char :=
  match d with
  | 0 => '0' | 1 => '1' | 2 => '2' | 3 => '3' | 4 => '4'
  | 5 => '5' | 6 => '6' | 7 => '7' | 8 => '8' | _ => '9'

/-- Fold a digit string into the natural number it denotes. -/
def digitsToNat (ds : List Char) : Nat :=
  ds.foldl (fun a c => a * 10 + digitVal c) 0

/-- Decimal digit expansion, fuelled helper. -/
def natDigitsAux : Nat → Nat → List Char
  | 0, _ => []
  | f + 1, n =>
    if n < 10 then [digitChar n]
    else natDigitsAux f (n / 10) ++ [digitChar (n % 10)]

/-- Decimal digit expansion of a natural number (no leading zeros,
`0` for zero). -/
def natDigits (n : Nat) : List Char := natDigitsAux (n + 1) n

/-- Hexadecimal digit test (for JSON `\uXXXX` escapes). -/
def isHexC (c : Char) : Bool :=
  isDigitC c || (97 ≤ c.toNat && c.toNat ≤ 102) ||
    (65 ≤ c.toNat && c.toNat ≤ 70)

/-- Hexadecimal digit value. -/
def hexVal (c : Char) : Nat :=
  if isDigitC c then digitVal c
  else if 97 ≤ c.toNat then c.toNat - 87
  else c.toNat - 55

/-- Lowercase a character list (models `str.lower()` on ASCII names). -/
def toLowerL (l : List Char) : List Char := l.map Char.toLower

/-- Rightmost index of a character in a list, if present
(models Python `str.rfind`). -/
def rfindIdx (l : List Char) (c : Char) : Option Nat :=
  match l.reverse.findIdx? (fun x => x = c) with
  | some i => some (l.length - 1 - i)
  | none => none

/-- Model of CPython `os.path.splitext` on a character list: split at the
last dot of the basename, unless all characters of the basename before
that dot are themselves dots. -/
def pySplitextL (p : List Char) : List Char × List Char :=
  match rfindIdx p '.' with
  | none => (p, [])
  | some di =>
    let si : Nat :=
      match rfindIdx p '/' with
      | some j => j + 1
      | none => 0
    if si ≤ di && ((p.drop si).take (di - si)).any (fun c => c ≠ '.') then
      (p.take di, p.drop di)
    else (p, [])

/-- String-level wrapper of `pySplitextL`. -/
def pySplitextS (s : String) : String × String :=
  let r := pySplitextL s.toList
  (String.mk r.1, String.mk r.2)

/-- Join a list of character lists with a separator
(models `sep.join(parts)`). -/
def joinSep (sep : List Char) : List (List Char) → List Char
  | [] => []
  | [x] => x
  | x :: xs => x ++ sep ++ joinSep sep xs

/-- JSON values as produced by Python's `json.loads`: numbers keep their
fraction/exponent lexeme as uninterpreted text (`[]` for plain integers),
and the non-standard `NaN` / `Infinity` literals that Python accepts are
explicit constructors. -/
inductive JVal where
  | jnull : JVal
  | jbool : Bool → JVal
  | jnum : Int → List Char → JVal
  | jnan : JVal
  | jinf : Bool → JVal
  | jstr : List Char → JVal
  | jarr : List JVal → JVal
  | jobj : List (List Char × JVal) → JVal

/-- Unescape a single-character JSON escape. -/
def unescapeChar (e : Char) : Option Char :=
  if e = qChar then some qChar
  else if e = bsChar then some bsChar
  else if e = '/' then some '/'
  else if e = 'b' then some (Char.ofNat 8)
  else if e = 'f' then some (Char.ofNat 12)
  else if e = 'n' then some '\n'
  else if e = 'r' then some '\r'
  else if e = 't' then some '\t'
  else none

/-- Parse the body of a JSON string after the opening quote, returning the
decoded characters and the input after the closing quote.  Control
characters below `0x20` are rejected unescaped, as in Python's strict
mode. -/
def parseStrBody : List Char → Option (List Char × List Char)
  | [] => none
  | c :: rest =>
    if c = qChar then some ([], rest)
    else if c = bsChar then
      match rest with
      | [] => none
      | e :: rest2 =>
        if e = 'u' then
          match rest2 with
          | h1 :: h2 :: h3 :: h4 :: rest3 =>
            if isHexC h1 && isHexC h2 && isHexC h3 && isHexC h4 then
              match parseStrBody rest3 with
              | some (s, r) =>
                some (Char.ofNat
                  (((hexVal h1 * 16 + hexVal h2) * 16 + hexVal h3) * 16
                    + hexVal h4) :: s, r)
              | none => none
            else none
          | _ => none
        else
          match unescapeChar e with
          | some c2 =>
            match parseStrBody rest2 with
            | some (s, r) => some (c2 :: s, r)
            | none => none
          | none => none
    else if c.toNat < 32 then none
    else
      match parseStrBody rest with
      | some (s, r) => some (c :: s, r)
      | none => none

/-- Parse the JSON integer part `0 | [1-9][0-9]*` (leading zeros are
rejected, as in Python's `json`). -/
def parseIntPart : List Char → Option (Nat × List Char)
  | [] => none
  | c :: r =>
    if c = '0' then some (0, r)
    else if isDigitC c then
      some (digitsToNat ((c :: r).takeWhile isDigitC),
        (c :: r).dropWhile isDigitC)
    else none

/-- Parse an optional JSON fraction part `.[0-9]+`; on mismatch nothing is
consumed. -/
def parseFracPart (l : List Char) : List Char × List Char :=
  match l with
  | '.' :: r =>
    let ds := r.takeWhile isDigitC
    if ds = [] then ([], l) else ('.' :: ds, r.dropWhile isDigitC)
  | _ => ([], l)

/-- Parse an optional JSON exponent part `[eE][+-]?[0-9]+`; on mismatch
nothing is consumed. -/
def parseExpPart (l : List Char) : List Char × List Char :=
  match l with
  | c :: r =>
    if c = 'e' || c = 'E' then
      let sr : List Char × List Char :=
        match r with
        | s :: r2 => if s = '+' || s = '-' then ([s], r2) else ([], r)
        | [] => ([], r)
      let ds := sr.2.takeWhile isDigitC
      if ds = [] then ([], l)
      else (c :: sr.1 ++ ds, sr.2.dropWhile isDigitC)
    else ([], l)
  | [] => ([], l)

/-- Parse a JSON number; the integer part is interpreted, the
fraction/exponent lexeme is kept verbatim. -/
def parseNumber (l : List Char) : Option (JVal × List Char) :=
  match l with
  | '-' :: r =>
    match parseIntPart r with
    | some (n, r1) =>
      let fr := parseFracPart r1
      let ex := parseExpPart fr.2
      some (.jnum (-(n : Int)) (fr.1 ++ ex.1), ex.2)
    | none => none
  | l2 =>
    match parseIntPart l2 with
    | some (n, r1) =>
      let fr := parseFracPart r1
      let ex := parseExpPart fr.2
      some (.jnum (n : Int) (fr.1 ++ ex.1), ex.2)
    | none => none

mutual

/-- Fuelled recursive-descent parser for a single JSON value, modelling
the grammar accepted by Python's `json.loads` (including the non-standard
`NaN` / `Infinity` constants it accepts by default). -/
def parseVal : Nat → List Char → Option (JVal × List Char)
  | 0, _ => none
  | f + 1, l =>
    match skipWs l with
    | [] => none
    | c :: rest =>
      if c = qChar then
        match parseStrBody rest with
        | some (s, r) => some (.jstr s, r)
        | none => none
      else if c = obChar then parseObjBody f (skipWs rest)
      else if c = '[' then parseArrBody f (skipWs rest)
      else if c = 'n' then
        if rest.take 3 = ['u', 'l', 'l'] then some (.jnull, rest.drop 3)
        else none
      else if c = 't' then
        if rest.take 3 = ['r', 'u', 'e'] then
          some (.jbool true, rest.drop 3)
        else none
      else if c = 'f' then
        if rest.take 4 = ['a', 'l', 's', 'e'] then
          some (.jbool false, rest.drop 4)
        else none
      else if c = 'N' then
        if rest.take 2 = ['a', 'N'] then some (.jnan, rest.drop 2)
        else none
      else if c = 'I' then
        if rest.take 7 = ['n', 'f', 'i', 'n', 'i', 't', 'y'] then
          some (.jinf false, rest.drop 7)
        else none
      else if c = '-' then
        if rest.take 8 = ['I', 'n', 'f', 'i', 'n', 'i', 't', 'y'] then
          some (.jinf true, rest.drop 8)
        else parseNumber (c :: rest)
      else if isDigitC c then parseNumber (c :: rest)
      else none

/-- Parse the inside of an array after `[` (input already
whitespace-skipped). -/
def parseArrBody : Nat → List Char → Option (JVal × List Char)
  | 0, _ => none
  | f + 1, l =>
    if l.head? = some ']' then some (.jarr [], l.tail)
    else
      match parseElems f l with
      | some (xs, r) => some (.jarr xs, r)
      | none => none

/-- Parse one or more comma-separated array elements up to `]`. -/
def parseElems : Nat → List Char → Option (List JVal × List Char)
  | 0, _ => none
  | f + 1, l =>
    match parseVal f l with
    | none => none
    | some (v, r) =>
      let r2 := skipWs r
      if r2.head? = some ',' then
        match parseElems f (skipWs r2.tail) with
        | some (xs, r3) => some (v :: xs, r3)
        | none => none
      else if r2.head? = some ']' then some ([v], r2.tail)
      else none

/-- Parse the inside of an object after the opening brace (input already
whitespace-skipped). -/
def parseObjBody : Nat → List Char → Option (JVal × List Char)
  | 0, _ => none
  | f + 1, l =>
    if l.head? = some cbChar then some (.jobj [], l.tail)
    else
      match parseMembers f l with
      | some (fs, r2) => some (.jobj fs, r2)
      | none => none

/-- Parse one or more comma-separated `"key": value` members up to the
closing brace. -/
def parseMembers : Nat → List Char →
    Option (List (List Char × JVal) × List Char)
  | 0, _ => none
  | f + 1, l =>
    if l.head? = some qChar then
      match parseStrBody l.tail with
      | some (k, r1) =>
        let r2 := skipWs r1
        if r2.head? = some ':' then
          match parseVal f r2.tail with
          | some (v, r3) =>
            let r4 := skipWs r3
            if r4.head? = some ',' then
              match parseMembers f (skipWs r4.tail) with
              | some (fs, r5) => some ((k, v) :: fs, r5)
              | none => none
            else if r4.head? = some cbChar then some ([(k, v)], r4.tail)
            else none
          | none => none
        else none
      | none => none
    else none

end

/-- Model of Python `json.loads`: parse one JSON document and require
that only whitespace remains. -/
def json_loads (s : List Char) : Option JVal :=
  match parseVal (4 * s.length + 4) s with
  | some (v, r) => if skipWs r = [] then some v else none
  | none => none

/-- Decimal serialization of an integer. -/
def serInt (n : Int) : List Char :=
  if n < 0 then '-' :: natDigits n.natAbs else natDigits n.toNat

mutual

/-- Compact serialization of a JSON value (the canonical text an LLM
could emit for it). -/
def serVal : JVal → List Char
  | .jnull => ['n', 'u', 'l', 'l']
  | .jbool true => ['t', 'r', 'u', 'e']
  | .jbool false => ['f', 'a', 'l', 's', 'e']
  | .jnan => ['N', 'a', 'N']
  | .jinf false => ['I', 'n', 'f', 'i', 'n', 'i', 't', 'y']
  | .jinf true => ['-', 'I', 'n', 'f', 'i', 'n', 'i', 't', 'y']
  | .jnum n suf => serInt n ++ suf
  | .jstr s => qChar :: s ++ [qChar]
  | .jarr xs => '[' :: serElemsList xs ++ [']']
  | .jobj fs => obChar :: serFieldsList fs ++ [cbChar]

/-- Serialize array elements, comma separated. -/
def serElemsList : List JVal → List Char
  | [] => []
  | [x] => serVal x
  | x :: y :: xs => serVal x ++ ',' :: serElemsList (y :: xs)

/-- Serialize object members, comma separated. -/
def serFieldsList : List (List Char × JVal) → List Char
  | [] => []
  | [(k, v)] => qChar :: k ++ qChar :: ':' :: serVal v
  | (k, v) :: g :: fs =>
    qChar :: k ++ qChar :: ':' :: serVal v ++ ',' :: serFieldsList (g :: fs)

end

/-- A character that may appear verbatim inside a serialized JSON string
without escaping. -/
def plainChar (c : Char) : Bool :=
  !(c = qChar) && !(c = bsChar) && !(c.toNat < 32)

mutual

/-- Well-formedness for the serialization round trip: strings and keys
use only plain characters, numbers are plain integers, and the
non-standard constants are excluded. -/
def wfJ : JVal → Bool
  | .jnull => true
  | .jbool _ => true
  | .jnan => false
  | .jinf _ => false
  | .jnum _ suf => suf = ([] : List Char)
  | .jstr s => s.all plainChar
  | .jarr xs => wfListJ xs
  | .jobj fs => wfFieldsJ fs

/-- Well-formedness of a list of JSON values. -/
def wfListJ : List JVal → Bool
  | [] => true
  | x :: xs => wfJ x && wfListJ xs

/-- Well-formedness of object members. -/
def wfFieldsJ : List (List Char × JVal) → Bool
  | [] => true
  | (k, v) :: fs => k.all plainChar && wfJ v && wfFieldsJ fs

end

mutual

/-- Fuel sufficient for `parseVal` to parse the serialization of a
value. -/
def jfuel : JVal → Nat
  | .jarr xs => 2 + elemsFuel xs
  | .jobj fs => 2 + fieldsFuel fs
  | _ => 1

/-- Fuel for parsing serialized array elements. -/
def elemsFuel : List JVal → Nat
  | [] => 1
  | x :: xs => 1 + jfuel x + elemsFuel xs

/-- Fuel for parsing serialized object members. -/
def fieldsFuel : List (List Char × JVal) → Nat
  | [] => 1
  | (_, v) :: fs => 1 + jfuel v + fieldsFuel fs

end

/-- Python exception classes relevant to the analysis pipeline.
`requestExc` covers `requests.RequestException` and its subclasses
(network faults and `raise_for_status` on non-2xx); `otherExc` stands for
any exception class not named in the `except` clause of `analyze_text`
(for example an auth error raised by credential loading). -/
inductive PyExc where
  | requestExc : PyExc
  | keyErr : PyExc
  | indexErr : PyExc
  | jsonDecodeErr : PyExc
  | typeErr : PyExc
  | otherExc : PyExc
  deriving DecidableEq, Repr

/-- The exception classes caught by `analyze_text`'s `except` clause:
`(requests.RequestException, KeyError, IndexError, json.JSONDecodeError)`. -/
def catchable : PyExc → Bool
  | .requestExc => true
  | .keyErr => true
  | .indexErr => true
  | .jsonDecodeErr => true
  | _ => false

/-- Python subscript `v[k]` with a string key: dictionaries look the key
up (last duplicate wins, as in a dict built from parsed JSON), missing
keys raise `KeyError`, and every non-dict value raises `TypeError`. -/
def pySubS (v : JVal) (k : List Char) : Except PyExc JVal :=
  match v with
  | .jobj fs =>
    match fs.reverse.find? (fun p => p.1 == k) with
    | some p => .ok p.2
    | none => .error .keyErr
  | _ => .error .typeErr

/-- Python subscript `v[i]` with an integer index: lists index (raising
`IndexError` out of range), strings yield a one-character string,
dictionaries from JSON have only string keys so an integer key raises
`KeyError`, and other values raise `TypeError`. -/
def pySubI (v : JVal) (i : Nat) : Except PyExc JVal :=
  match v with
  | .jarr xs =>
    match xs[i]? with
    | some x => .ok x
    | none => .error .indexErr
  | .jstr s =>
    match s[i]? with
    | some c => .ok (.jstr [c])
    | none => .error .indexErr
  | .jobj _ => .error .keyErr
  | _ => .error .typeErr

/-- Navigation `response_data["candidates"][0]["content"]["parts"][0]["text"]`
performed by `analyze_text`, followed by the `str` requirement of
`json.loads` (a non-string argument raises `TypeError`). -/
def getCandidateText (body : JVal) : Except PyExc (List Char) := do
  let c ← pySubS body "candidates".toList
  let c0 ← pySubI c 0
  let ct ← pySubS c0 "content".toList
  let ps ← pySubS ct "parts".toList
  let p0 ← pySubI ps 0
  let t ← pySubS p0 "text".toList
  match t with
  | .jstr s => .ok s
  | _ => .error .typeErr

/-- Oracle for the external effects of one `analyze_text` call: the
outcome of `_get_access_token()` (outside the `try` block in the source),
of `requests.post`, of `resp.raise_for_status()`, and of `resp.json()`. -/
structure GeminiEnv where
  tokenResult : Except PyExc Unit
  postResult : Except PyExc Unit
  statusResult : Except PyExc Unit
  jsonResult : Except PyExc JVal

/-- Result returned by `analyze_text` for empty or whitespace-only
input. -/
def emptyDocResult : JVal :=
  .jobj [("summary".toList, .jstr "Document is empty.".toList),
    ("pros".toList, .jarr []), ("cons".toList, .jarr []),
    ("loopholes".toList, .jarr [])]

/-- Result returned by `analyze_text` when a caught exception aborts the
Gemini call or the parsing of its response. -/
def failureResult : JVal :=
  .jobj [("summary".toList, .jstr "Failed to analyze document.".toList),
    ("pros".toList, .jarr []), ("cons".toList, .jarr []),
    ("loopholes".toList, .jarr [])]

/-- Body of the `try` block of `analyze_text`: post the request, check
the status, decode the response body, navigate to the candidate text and
run it through `json.loads`. -/
def analyzeAttempt (env : GeminiEnv) : Except PyExc JVal :=
  match env.postResult with
  | .error e => .error e
  | .ok _ =>
    match env.statusResult with
    | .error e => .error e
    | .ok _ =>
      match env.jsonResult with
      | .error e => .error e
      | .ok body =>
        match getCandidateText body with
        | .error e => .error e
        | .ok s =>
          match json_loads s with
          | some v => .ok v
          | none => .error .jsonDecodeErr

/-- Model of `analyze_text` from `app/routes/analyze.py`: empty or
whitespace-only input short-circuits; `_get_access_token()` runs outside
the `try` block, so its exception propagates; inside the `try` block any
exception of a caught class is converted to `failureResult`, while other
exceptions propagate.  The request payload (prompt text truncated to
25000 characters, generation parameters) does not influence the modelled
observable behaviour and is not represented. -/
def analyze_text (text : List Char) (env : GeminiEnv) : Except PyExc JVal :=
  if text.isEmpty || (pyStripL text).isEmpty then .ok emptyDocResult
  else
    match env.tokenResult with
    | .error e => .error e
    | .ok _ =>
      match analyzeAttempt env with
      | .ok v => .ok v
      | .error e => if catchable e then .ok failureResult else .error e

/-- The candidate text that `analyze_text` would extract from the
response described by the environment, when every step up to the
navigation succeeds. -/
def llmCandidateText (env : GeminiEnv) : Option (List Char) :=
  match env.postResult, env.statusResult, env.jsonResult with
  | .ok _, .ok _, .ok body =>
    match getCandidateText body with
    | .ok s => some s
    | .error _ => none
  | _, _, _ => none

/-- Field lookup on a JSON object (last duplicate wins, as in a Python
dict built from parsed JSON). -/
def jGet (v : JVal) (k : List Char) : Option JVal :=
  match v with
  | .jobj fs => (fs.reverse.find? (fun p => p.1 == k)).map Prod.snd
  | _ => none

/-- A JSON value that is a sequence of non-empty (after stripping)
strings. -/
def isNonEmptyStrList (v : JVal) : Bool :=
  match v with
  | .jarr xs =>
    xs.all (fun x =>
      match x with
      | .jstr s => !(pyStripL s).isEmpty
      | _ => false)
  | _ => false

/-- The four keys of the canonical analysis schema. -/
def schemaKeys : List (List Char) :=
  ["summary".toList, "pros".toList, "cons".toList, "loopholes".toList]

/-- The canonical output contract stated by the spec: an object with
exactly the four required keys, `summary` a string and the other three
sequences of non-empty strings. -/
def schemaOK (v : JVal) : Bool :=
  match v with
  | .jobj fs =>
    let ks := fs.map Prod.fst
    ks.all (fun k => schemaKeys.contains k) &&
      schemaKeys.all (fun k => ks.contains k) &&
      decide ks.Nodup &&
      (match jGet v "summary".toList with
       | some (.jstr _) => true
       | _ => false) &&
      (match jGet v "pros".toList with
       | some w => isNonEmptyStrList w
       | none => false) &&
      (match jGet v "cons".toList with
       | some w => isNonEmptyStrList w
       | none => false) &&
      (match jGet v "loopholes".toList with
       | some w => isNonEmptyStrList w
       | none => false)
  | _ => false

/-- Modelled from the spec: the all-empty default schema (empty summary,
empty pros/cons/loopholes) that the spec says the Result Coercer returns
for text with no recoverable JSON.  No such value appears in the source;
it is needed only to compare the spec's claim with the code's actual
failure default. -/
def specAllEmptyResult : JVal :=
  .jobj [("summary".toList, .jstr []),
    ("pros".toList, .jarr []), ("cons".toList, .jarr []),
    ("loopholes".toList, .jarr [])]

/-- Observable projection used to separate closed JSON values: the text
of the `summary` field. -/
def summaryTextOf (v : JVal) : List Char :=
  match jGet v "summary".toList with
  | some (.jstr s) => s
  | _ => []

/-- Lowercased extension of a blob name, as computed by
`os.path.splitext(b.name)[1].lower()` in `_find_blob_for_doc`. -/
def extKeyOf (name : List Char) : List Char := toLowerL (pySplitextL name).2

/-- Extension priority order of the document locator. -/
def priorityExts : List (List Char) :=
  [".pdf".toList, ".docx".toList, ".txt".toList]

/-- Lookup in the dict comprehension
`by_ext = (extension to blob, later entries overwriting earlier ones)`. -/
def byExtLookup (blobs : List (List Char)) (ext : List Char) :
    Option (List Char) :=
  blobs.reverse.find? (fun b => extKeyOf b == ext)

/-- The priority loop of `_find_blob_for_doc`: for each extension in
order, if some blob carries it and that blob's name starts with the
prefix, return it; otherwise continue. -/
def prioritySelect (blobs : List (List Char)) (pfx : List Char) :
    List (List Char) → Option (List Char)
  | [] => none
  | e :: es =>
    match byExtLookup blobs e with
    | some b =>
      if pfx.isPrefixOf b then some b else prioritySelect blobs pfx es
    | none => prioritySelect blobs pfx es

/-- Model of `_find_blob_for_doc` from `app/services/documents.py`.  The
input list is the storage backend's listing for the prefix
`raw/{file_id}`, in the order the backend returned it. -/
def _find_blob_for_doc (blobs : List (List Char)) (file_id : List Char) :
    Option (List Char) :=
  let pfx := "raw/".toList ++ file_id
  if blobs.isEmpty then none
  else
    match prioritySelect blobs pfx priorityExts with
    | some b => some b
    | none =>
      match blobs.find? (fun b => pfx.isPrefixOf b) with
      | some b => some b
      | none => blobs.head?

/-- Oracle for the two PDF libraries: the outcome of opening the
document with pdfplumber (a list of per-page `extract_text()` outcomes,
where `none` models a `None` return) and the same for the PyPDF2
fallback.  An `error` outcome models any exception raised by the library
call outside the per-page `try` blocks. -/
structure PdfLibEnv where
  plumberPages : Except Unit (List (Except Unit (Option (List Char))))
  pypdfPages : Except Unit (List (Except Unit (Option (List Char))))

/-- Per-page text: a failing page or a `None` return contributes the
empty string (`page.extract_text() or ""` under a per-page `try`). -/
def pageTextOf (p : Except Unit (Option (List Char))) : List Char :=
  match p with
  | .error _ => []
  | .ok none => []
  | .ok (some s) => s

/-- Non-empty per-page texts, in page order. -/
def nonEmptyPageTexts (ps : List (Except Unit (Option (List Char)))) :
    List (List Char) :=
  (ps.map pageTextOf).filter (fun t => !t.isEmpty)

/-- Model of `_extract_text_from_pdf`: try pdfplumber, joining non-empty
page texts with a blank line and stripping; on any pdfplumber fault fall
back to PyPDF2 the same way; if both fail return the empty string. -/
def _extract_text_from_pdf (env : PdfLibEnv) : List Char :=
  match env.plumberPages with
  | .ok ps => pyStripL (joinSep ['\n', '\n'] (nonEmptyPageTexts ps))
  | .error _ =>
    match env.pypdfPages with
    | .ok ps => pyStripL (joinSep ['\n', '\n'] (nonEmptyPageTexts ps))
    | .error _ => []

/-- Model of `_extract_text_from_docx`: join non-empty paragraph texts
with newlines and strip; any fault yields the empty string. -/
def _extract_text_from_docx (paras : Except Unit (List (List Char))) :
    List Char :=
  match paras with
  | .ok ps => pyStripL (joinSep ['\n'] (ps.filter (fun t => !t.isEmpty)))
  | .error _ => []

/-- Model of `_extract_text_generic`: strict UTF-8 decode, then a lossy
decode with undecodable sequences ignored, then the empty string. -/
def _extract_text_generic (strict lossy : Except Unit (List Char)) :
    List Char :=
  match strict with
  | .ok s => s
  | .error _ =>
    match lossy with
    | .ok s => s
    | .error _ => []

/-- Oracle for every external library call of one text-extraction pass
over one blob's bytes. -/
structure ExtractEnv where
  pdf : PdfLibEnv
  docxParas : Except Unit (List (List Char))
  decodeStrict : Except Unit (List Char)
  decodeLossy : Except Unit (List Char)

/-- The extraction dispatch of `get_document_text` (lines 122-135 of
`app/services/documents.py`): select the strategy by the blob name's
lowercased extension and strip the result (`(text or "").strip()`). -/
def extract_document_text (blobName : List Char) (env : ExtractEnv) :
    List Char :=
  let ext := toLowerL (pySplitextL blobName).2
  let text :=
    if ext = ".pdf".toList then _extract_text_from_pdf env.pdf
    else if ext = ".docx".toList then _extract_text_from_docx env.docxParas
    else if ext = ".txt".toList || ext = ".text".toList then
      _extract_text_generic env.decodeStrict env.decodeLossy
    else _extract_text_generic env.decodeStrict env.decodeLossy
  pyStripL text

/-- Blob store state: keys paired with the JSON value stored under them
(the source serializes with `json.dumps(analysis_data, indent=2)`; the
serialization is injective, so modelling the stored content as the value
itself preserves every key-presence and content-identity statement). -/
structure Store where
  blobs : List (String × JVal)

/-- Model of `_update_status_in_db` from `app/routes/analyze.py`: the
function body is a log line and `pass`, so it leaves the store
untouched. -/
def _update_status_in_db (doc_id status : String) (st : Store) : Store :=
  st

/-- Oracle for the external effects of one `trigger_analysis` run: the
outcome of `extract_text_with_docai` (which re-raises any Document AI
fault as `RuntimeError`), the Gemini call environment, the outcome of
`_init_storage_client()` and of `blob.upload_from_string`. -/
structure PipelineEnv where
  extractResult : Except PyExc (List Char)
  gemini : GeminiEnv
  storageInit : Except PyExc Unit
  uploadResult : Except PyExc Unit

/-- Model of `_save_analysis_to_gcs`: the upload runs inside its own
`try`/`except` that logs and swallows any exception, so a failing upload
leaves the store unchanged and the function returns normally either
way. -/
def _save_analysis_to_gcs (env : PipelineEnv) (st : Store)
    (doc_id : String) (analysis : JVal) : Store :=
  match env.uploadResult with
  | .ok _ => ⟨st.blobs ++ [("processed/" ++ doc_id ++ ".json", analysis)]⟩
  | .error _ => st

/-- Observable outcome of one orchestrator run: the status values passed
to `_update_status_in_db` in order, the final store, and whether
`analyze_text` was invoked. -/
structure RunResult where
  statusCalls : List String
  store : Store
  analysisCalled : Bool

/-- Model of `trigger_analysis` from `app/routes/analyze.py`: emit
`extracting_text`, extract; on empty text emit `error_empty_document`
and stop; otherwise emit `analyzing`, analyze, initialize the storage
client, save (upload faults absorbed inside the save helper), and emit
`processed`.  Any exception escaping these steps is caught by the
orchestrator's `except` clause, which emits `error_processing_failed`. -/
def trigger_analysis (doc_id_with_ext : String) (env : PipelineEnv)
    (st : Store) : RunResult :=
  let doc_id := (pySplitextS doc_id_with_ext).1
  let st1 := _update_status_in_db doc_id "extracting_text" st
  match env.extractResult with
  | .error _ =>
    ⟨["extracting_text", "error_processing_failed"],
      _update_status_in_db doc_id "error_processing_failed" st1, false⟩
  | .ok text =>
    if text.isEmpty then
      ⟨["extracting_text", "error_empty_document"],
        _update_status_in_db doc_id "error_empty_document" st1, false⟩
    else
      let st2 := _update_status_in_db doc_id "analyzing" st1
      match analyze_text text env.gemini with
      | .error _ =>
        ⟨["extracting_text", "analyzing", "error_processing_failed"],
          _update_status_in_db doc_id "error_processing_failed" st2, true⟩
      | .ok analysis =>
        match env.storageInit with
        | .error _ =>
          ⟨["extracting_text", "analyzing", "error_processing_failed"],
            _update_status_in_db doc_id "error_processing_failed" st2, true⟩
        | .ok _ =>
          let st3 := _save_analysis_to_gcs env st2 doc_id analysis
          ⟨["extracting_text", "analyzing", "processed"],
            _update_status_in_db doc_id "processed" st3, true⟩

/-- Key of the processed artifact for a document identifier. -/
def processedKeyFor (doc_id : String) : String :=
  "processed/" ++ doc_id ++ ".json"

/-- Whether the processed artifact exists
(`bucket.blob(f"processed/(doc_id).json").exists()`). -/
def processedExists (st : Store) (doc_id : String) : Bool :=
  st.blobs.any (fun p => p.1 == processedKeyFor doc_id)

/-- Whether the raw listing for the identifier is non-empty
(`list(bucket.list_blobs(prefix=f"raw/(doc_id)"))`). -/
def rawExists (st : Store) (doc_id : String) : Bool :=
  st.blobs.any (fun p => ("raw/" ++ doc_id).isPrefixOf p.1)

/-- The status determination of `get_document_details` in
`app/routes/documents.py`: `processed` when the processed blob exists,
else `processing` when some raw blob exists, else not found (404). -/
def read_document_status (st : Store) (file_id : String) : String :=
  let doc_id := (pySplitextS file_id).1
  if processedExists st doc_id then "processed"
  else if rawExists st doc_id then "processing"
  else "not_found"

/-- Gemini response body whose first candidate's first part carries the
given text. -/
def mkGeminiBody (s : List Char) : JVal :=
  .jobj [("candidates".toList,
    .jarr [.jobj [("content".toList,
      .jobj [("parts".toList,
        .jarr [.jobj [("text".toList, .jstr s)]])])]])]

/-- Environment of a fully successful Gemini exchange returning the
given raw text. -/
def happyGeminiEnv (s : List Char) : GeminiEnv :=
  ⟨.ok (), .ok (), .ok (), .ok (mkGeminiBody s)⟩

/-- Sample non-empty document text. -/
def sampleDocText : List Char := "Employer may terminate at will.".toList

/-- Opening of a JSON-tagged fenced block. -/
def fenceOpen : List Char := [btChar, btChar, btChar, 'j', 's', 'o', 'n', '\n']

/-- Closing of a fenced block. -/
def fenceClose : List Char := ['\n', btChar, btChar, btChar]

/-- Wrap a text in a JSON-tagged fenced block. -/
def fenceWrap (s : List Char) : List Char := fenceOpen ++ s ++ fenceClose

/-- Sample well-formed analysis object. -/
def sampleAnalysis : JVal :=
  .jobj [("summary".toList, .jstr "At-will termination clause.".toList),
    ("pros".toList, .jarr []),
    ("cons".toList, .jarr [.jstr "One-sided".toList]),
    ("loopholes".toList, .jarr [])]

/-- The first extension of the priority order carried by some blob of
the listing, if any. -/
def firstPriorityExt (blobs : List (List Char)) : Option (List Char) :=
  priorityExts.find? (fun e => blobs.any (fun b => extKeyOf b == e))

/-- Characters that can start the serialization of a JSON value. -/
def startOK (c : Char) : Bool :=
  c = qChar || c = obChar || c = '[' || c = 'n' || c = 't' || c = 'f' ||
    c = 'N' || c = 'I' || c = '-' || isDigitC c

/-- Side condition on the input following a serialized value: a number
must not be followed by a character that would extend its lexeme. -/
def numRestOK (v : JVal) (rest : List Char) : Prop :=
  match v with
  | .jnum _ _ =>
    ∀ c, rest.head? = some c →
      isDigitC c = false ∧ c ≠ '.' ∧ c ≠ 'e' ∧ c ≠ 'E'
  | _ => True

/-- Every fault the environment injects inside `analyze_text`'s `try`
block belongs to a caught exception class. -/
def envFaultsCatchable (env : GeminiEnv) : Bool :=
  (match env.postResult with
   | .error e => catchable e
   | .ok _ => true) &&
  (match env.statusResult with
   | .error e => catchable e
   | .ok _ => true) &&
  (match env.jsonResult with
   | .error e => catchable e
   | .ok body =>
     match getCandidateText body with
     | .error e => catchable e
     | .ok _ => true)

/-- Pipeline environment for the persistence-fault counterexample: all
steps succeed except the GCS upload. -/
def uploadFailEnv : PipelineEnv :=
  ⟨.ok "Extracted contract text.".toList,
    happyGeminiEnv (serVal sampleAnalysis), .ok (), .error .otherExc⟩

/-- Pipeline environment for the artifact-existence counterexample. -/
def uploadFailEnv2 : PipelineEnv :=
  ⟨.ok "Lease agreement text.".toList,
    happyGeminiEnv (serVal sampleAnalysis), .ok (), .error .requestExc⟩

/-- Fully successful pipeline environment. -/
def happyPipelineEnv : PipelineEnv :=
  ⟨.ok "Extracted contract text.".toList,
    happyGeminiEnv (serVal sampleAnalysis), .ok (), .ok ()⟩

/-- Gemini environment whose credential acquisition fails with an
uncaught exception class. -/
def tokenFailEnv : GeminiEnv :=
  ⟨.error .otherExc, .ok (), .ok (), .ok .jnull⟩

/-- Candidate text for the schema counterexample: a JSON object with a
single unrelated key. -/
def fooText : List Char := serVal (.jobj [("foo".toList, .jnum 1 [])])

/-- Candidate text with no recoverable JSON. -/
def proseText : List Char := "I could not produce an analysis.".toList

/-- Backend listing with two non-priority extensions, one order. -/
def listingAB : List (List Char) := ["raw/x.md".toList, "raw/x.xml".toList]

/-- The same listing in the other order. -/
def listingBA : List (List Char) := ["raw/x.xml".toList, "raw/x.md".toList]

/-! Lemmas about Python-style stripping. -/

theorem head_dropWhile_not (p : Char → Bool) (l : List Char) :
    ∀ c, (l.dropWhile p).head? = some c → p c = false := by
  induction l with
  | nil => intro c h; simp at h
  | cons x xs ih =>
    intro c h
    rw [List.dropWhile_cons] at h
    cases hx : p x with
    | true => rw [hx] at h; simp only [if_true] at h; exact ih c h
    | false =>
      rw [hx] at h
      simp only [Bool.false_eq_true, if_false, List.head?_cons,
        Option.some.injEq] at h
      exact h ▸ hx

theorem trimRightPy_isPre (l : List Char) : trimRightPy l <+: l := by
  have h : l.reverse.dropWhile isPyWs <:+ l.reverse :=
    List.dropWhile_suffix isPyWs
  have h2 : (l.reverse.dropWhile isPyWs).reverse.reverse <:+ l.reverse := by
    rwa [List.reverse_reverse]
  unfold trimRightPy
  exact List.reverse_suffix.mp h2

theorem head?_of_isPre {l1 l2 : List Char} (h : l1 <+: l2)
    (hne : l1 ≠ []) : l2.head? = l1.head? := by
  obtain ⟨t, rfl⟩ := h
  cases l1 with
  | nil => exact absurd rfl hne
  | cons a s => rfl

theorem pyStripL_isStripped (l : List Char) : isStrippedL (pyStripL l) := by
  constructor
  · intro c hc
    have hpre := trimRightPy_isPre (trimLeftPy l)
    have hne : trimRightPy (trimLeftPy l) ≠ [] := by
      intro he
      rw [pyStripL, he] at hc
      simp at hc
    have h2 : (trimLeftPy l).head? = some c :=
      (head?_of_isPre hpre hne).trans hc
    exact head_dropWhile_not isPyWs l c h2
  · intro c hc
    simp only [pyStripL, trimRightPy, List.getLast?_reverse] at hc
    exact head_dropWhile_not isPyWs _ c hc

/-- C8: for every blob name and every outcome of the external extraction
libraries (covering every byte payload and declared type, including
unsupported and corrupted formats, since each library call may fail), the
text-extraction dispatch returns a value — the model is total, mirroring
that the code catches every library fault — the returned text is trimmed
of leading and trailing whitespace, and total failure of every strategy
yields the empty string. -/
theorem extract_never_raises_trimmed (blobName : List Char)
    (env : ExtractEnv) :
    isStrippedL (extract_document_text blobName env) ∧
      (env.pdf.plumberPages = .error () → env.pdf.pypdfPages = .error () →
        env.docxParas = .error () → env.decodeStrict = .error () →
        env.decodeLossy = .error () →
        extract_document_text blobName env = []) := by
  refine ⟨pyStripL_isStripped _, ?_⟩
  intro h1 h2 h3 h4 h5
  rcases env with ⟨⟨pl, py⟩, dx, ds, dl⟩
  simp only at h1 h2 h3 h4 h5
  subst h1 h2 h3 h4 h5
  simp [extract_document_text, _extract_text_from_pdf,
    _extract_text_from_docx, _extract_text_generic, pyStripL, trimLeftPy,
    trimRightPy]

theorem extract_never_raises_trimmed_witness :
    isStrippedL (extract_document_text "raw/w8.bin".toList
      ⟨⟨.error (), .error ()⟩, .error (), .error (), .error ()⟩) ∧
    extract_document_text "raw/w8.bin".toList
      ⟨⟨.error (), .error ()⟩, .error (), .error (), .error ()⟩ = [] :=
  ⟨(extract_never_raises_trimmed _ _).1,
    (extract_never_raises_trimmed _ _).2 rfl rfl rfl rfl rfl⟩

/-- C6: whenever extraction returns empty text, the orchestrator emits
exactly `extracting_text` then `error_empty_document`, leaves the store
unchanged (no processed artifact), and never invokes the analysis
step. -/
theorem empty_extraction_terminal (d : String) (env : PipelineEnv)
    (st : Store) (h : env.extractResult = .ok []) :
    (trigger_analysis d env st).statusCalls =
        ["extracting_text", "error_empty_document"] ∧
      (trigger_analysis d env st).store = st ∧
      (trigger_analysis d env st).analysisCalled = false := by
  simp [trigger_analysis, h, _update_status_in_db]

theorem empty_extraction_terminal_witness :
    (⟨.ok [], happyGeminiEnv [], .ok (), .ok ()⟩ : PipelineEnv).extractResult
        = .ok [] ∧
      ((trigger_analysis "w6.pdf"
          ⟨.ok [], happyGeminiEnv [], .ok (), .ok ()⟩ ⟨[]⟩).statusCalls =
        ["extracting_text", "error_empty_document"] ∧
      (trigger_analysis "w6.pdf"
          ⟨.ok [], happyGeminiEnv [], .ok (), .ok ()⟩ ⟨[]⟩).store = ⟨[]⟩ ∧
      (trigger_analysis "w6.pdf"
          ⟨.ok [], happyGeminiEnv [], .ok (), .ok ()⟩ ⟨[]⟩).analysisCalled
        = false) :=
  ⟨rfl, empty_extraction_terminal _ _ _ rfl⟩

/-- C10: the status-update operation returns the store unchanged (its
body is a log line and `pass`); consequently a pipeline run can add only
the processed artifact to storage, never a status record; and the status
a reader observes is a function of blob existence alone. -/
theorem status_update_no_state :
    (∀ d s st, _update_status_in_db d s st = st) ∧
      (∀ d env st k v, (k, v) ∈ (trigger_analysis d env st).store.blobs →
        (k, v) ∈ st.blobs ∨ k = processedKeyFor (pySplitextS d).1) ∧
      (∀ st1 st2 f,
        processedExists st1 (pySplitextS f).1 =
            processedExists st2 (pySplitextS f).1 →
          rawExists st1 (pySplitextS f).1 =
            rawExists st2 (pySplitextS f).1 →
          read_document_status st1 f = read_document_status st2 f) := by
  refine ⟨fun d s st => rfl, ?_, ?_⟩
  · intro d env st k v hmem
    rcases env with ⟨ex, ge, si, up⟩
    cases ex with
    | error e =>
      simp [trigger_analysis, _update_status_in_db] at hmem
      exact Or.inl hmem
    | ok text =>
      by_cases ht : text.isEmpty
      · simp [trigger_analysis, _update_status_in_db, ht] at hmem
        exact Or.inl hmem
      · cases ha : analyze_text text ge with
        | error e =>
          simp [trigger_analysis, _update_status_in_db, ht, ha] at hmem
          exact Or.inl hmem
        | ok analysis =>
          cases si with
          | error e =>
            simp [trigger_analysis, _update_status_in_db, ht, ha] at hmem
            exact Or.inl hmem
          | ok u =>
            cases up with
            | error e =>
              simp [trigger_analysis, _update_status_in_db, ht, ha,
                _save_analysis_to_gcs] at hmem
              exact Or.inl hmem
            | ok u2 =>
              simp [trigger_analysis, _update_status_in_db, ht, ha,
                _save_analysis_to_gcs] at hmem
              rcases hmem with hmem | ⟨hk, hv⟩
              · exact Or.inl hmem
              · exact Or.inr (by rw [hk]; rfl)
  · intro st1 st2 f h1 h2
    simp only [read_document_status, h1, h2]

/-- C1 counterexample: a run in which the persistence write
(`blob.upload_from_string` under the `processed/` key) raises, yet the
orchestrator does not abort — the final status emitted is `processed`,
not `error_processing_failed`, because the save helper swallows the
fault. -/
theorem persistence_fault_counterexample :
    uploadFailEnv.uploadResult = .error .otherExc ∧
      (trigger_analysis "doc-1.pdf" uploadFailEnv ⟨[]⟩).statusCalls =
        ["extracting_text", "analyzing", "processed"] ∧
      ("processed" : String) ≠ "error_processing_failed" :=
  ⟨rfl, by rfl, by decide⟩

/-- C1 amended: a fault raised by the persistence write itself is
absorbed inside `_save_analysis_to_gcs` (logged and swallowed), so the
run still emits `processed`; only faults outside that absorbed boundary
— here storage-client initialization — abort the remaining steps with
`error_processing_failed`. -/
theorem persistence_boundary (d : String) (env : PipelineEnv) (st : Store)
    (t : List Char) (a : JVal)
    (hx : env.extractResult = .ok t) (hne : t.isEmpty = false)
    (ha : analyze_text t env.gemini = .ok a) :
    (env.storageInit = .ok () →
      (trigger_analysis d env st).statusCalls =
        ["extracting_text", "analyzing", "processed"]) ∧
    (∀ e, env.storageInit = .error e →
      (trigger_analysis d env st).statusCalls =
        ["extracting_text", "analyzing", "error_processing_failed"]) := by
  constructor
  · intro hs
    simp [trigger_analysis, hx, hne, ha, hs, _update_status_in_db]
  · intro e hs
    simp [trigger_analysis, hx, hne, ha, hs, _update_status_in_db]

theorem persistence_boundary_witness :
    (trigger_analysis "doc-1b.pdf" uploadFailEnv ⟨[]⟩).statusCalls =
      ["extracting_text", "analyzing", "processed"] :=
  (persistence_boundary "doc-1b.pdf" uploadFailEnv ⟨[]⟩
    "Extracted contract text.".toList sampleAnalysis rfl rfl (by rfl)).1 rfl

/-- C5 counterexample: a run where extraction returns non-empty text and
analysis succeeds, the statuses are `extracting_text`, `analyzing`,
`processed` — but no processed artifact exists for the document, because
the upload faulted and the fault was absorbed. -/
theorem success_artifact_counterexample :
    uploadFailEnv2.extractResult = .ok "Lease agreement text.".toList ∧
      analyze_text "Lease agreement text.".toList uploadFailEnv2.gemini =
        .ok sampleAnalysis ∧
      (trigger_analysis "doc-5.pdf" uploadFailEnv2 ⟨[]⟩).statusCalls =
        ["extracting_text", "analyzing", "processed"] ∧
      processedExists (trigger_analysis "doc-5.pdf" uploadFailEnv2
        ⟨[]⟩).store "doc-5" = false :=
  ⟨rfl, by rfl, by rfl, by rfl⟩

/-- C5 amended: when extraction returns non-empty text, analysis
succeeds, the storage client initializes and the persistence write
succeeds, the statuses are `extracting_text`, `analyzing`, `processed`
and the analysis is stored under `processed/(id).json`. -/
theorem success_path_with_persistence (d : String) (env : PipelineEnv)
    (st : Store) (t : List Char) (a : JVal)
    (hx : env.extractResult = .ok t) (hne : t.isEmpty = false)
    (ha : analyze_text t env.gemini = .ok a)
    (hs : env.storageInit = .ok ()) (hu : env.uploadResult = .ok ()) :
    (trigger_analysis d env st).statusCalls =
      ["extracting_text", "analyzing", "processed"] ∧
    (processedKeyFor (pySplitextS d).1, a) ∈
      (trigger_analysis d env st).store.blobs := by
  simp [trigger_analysis, hx, hne, ha, hs, hu, _update_status_in_db,
    _save_analysis_to_gcs, processedKeyFor]

theorem success_path_with_persistence_witness :
    (trigger_analysis "doc-5w.pdf" happyPipelineEnv ⟨[]⟩).statusCalls =
      ["extracting_text", "analyzing", "processed"] ∧
    (processedKeyFor (pySplitextS "doc-5w.pdf").1, sampleAnalysis) ∈
      (trigger_analysis "doc-5w.pdf" happyPipelineEnv ⟨[]⟩).store.blobs :=
  success_path_with_persistence "doc-5w.pdf" happyPipelineEnv ⟨[]⟩
    "Extracted contract text.".toList sampleAnalysis rfl rfl (by rfl)
    rfl rfl

theorem byExtLookup_some_of_any (blobs : List (List Char))
    (ext : List Char)
    (h : blobs.any (fun b => extKeyOf b == ext) = true) :
    ∃ b, byExtLookup blobs ext = some b ∧ extKeyOf b = ext ∧ b ∈ blobs := by
  cases hfind : blobs.reverse.find? (fun b => extKeyOf b == ext) with
  | none =>
    rw [List.find?_eq_none] at hfind
    rcases List.any_eq_true.mp h with ⟨x, hx, hpx⟩
    exact absurd hpx (hfind x (List.mem_reverse.mpr hx))
  | some b =>
    refine ⟨b, hfind, ?_, ?_⟩
    · have hp := List.find?_some hfind
      exact eq_of_beq (by simpa using hp)
    · exact List.mem_reverse.mp (List.mem_of_find?_eq_some hfind)

theorem byExtLookup_none_of_not_any (blobs : List (List Char))
    (ext : List Char)
    (h : blobs.any (fun b => extKeyOf b == ext) = false) :
    byExtLookup blobs ext = none := by
  rw [byExtLookup, List.find?_eq_none]
  intro x hx
  have := List.any_eq_false.mp h x (List.mem_reverse.mp hx)
  simpa using this

/-- C7: whenever the backend listing for `raw/(id)` is non-empty and
some listed blob carries an extension of the priority order, the locator
returns a blob carrying the first priority extension present; since
`.pdf` precedes `.txt`, a `.pdf` blob wins over a `.txt` blob for the
same identifier. -/
theorem locator_priority (blobs : List (List Char)) (fid : List Char)
    (ext : List Char) (hfp : firstPriorityExt blobs = some ext)
    (hpfx : ∀ b ∈ blobs, ("raw/".toList ++ fid).isPrefixOf b = true) :
    ∃ b, _find_blob_for_doc blobs fid = some b ∧ extKeyOf b = ext ∧
      b ∈ blobs := by
  unfold firstPriorityExt priorityExts at hfp
  cases h1 : blobs.any (fun b => extKeyOf b == ".pdf".toList) with
  | true =>
    simp only [List.find?_cons, h1] at hfp
    obtain ⟨b0, hlk, hext, hmem⟩ := byExtLookup_some_of_any blobs _ h1
    have hne : blobs.isEmpty = false := by
      cases blobs with
      | nil => cases hmem
      | cons a l => rfl
    obtain rfl : ".pdf".toList = ext := by simpa using hfp
    have hlk2 : byExtLookup blobs ['.', 'p', 'd', 'f'] = some b0 := hlk
    have hp : 'r' :: 'a' :: 'w' :: '/' :: fid <+: b0 := by
      have := hpfx b0 hmem
      simpa using this
    refine ⟨b0, ?_, hext, hmem⟩
    simp [_find_blob_for_doc, prioritySelect, priorityExts, hne, hlk2, hp]
  | false =>
    simp only [List.find?_cons, h1] at hfp
    have hn1 := byExtLookup_none_of_not_any blobs _ h1
    cases h2 : blobs.any (fun b => extKeyOf b == ".docx".toList) with
    | true =>
      simp only [List.find?_cons, h2] at hfp
      obtain ⟨b0, hlk, hext, hmem⟩ := byExtLookup_some_of_any blobs _ h2
      have hne : blobs.isEmpty = false := by
        cases blobs with
        | nil => cases hmem
        | cons a l => rfl
      obtain rfl : ".docx".toList = ext := by simpa using hfp
      have hn1b : byExtLookup blobs ['.', 'p', 'd', 'f'] = none := hn1
      have hlk2 : byExtLookup blobs ['.', 'd', 'o', 'c', 'x'] = some b0 :=
        hlk
      have hp : 'r' :: 'a' :: 'w' :: '/' :: fid <+: b0 := by
        have := hpfx b0 hmem
        simpa using this
      refine ⟨b0, ?_, hext, hmem⟩
      simp [_find_blob_for_doc, prioritySelect, priorityExts, hne, hn1b,
        hlk2, hp]
    | false =>
      simp only [List.find?_cons, h2] at hfp
      have hn2 := byExtLookup_none_of_not_any blobs _ h2
      cases h3 : blobs.any (fun b => extKeyOf b == ".txt".toList) with
      | true =>
        simp only [List.find?_cons, h3] at hfp
        obtain ⟨b0, hlk, hext, hmem⟩ := byExtLookup_some_of_any blobs _ h3
        have hne : blobs.isEmpty = false := by
          cases blobs with
          | nil => cases hmem
          | cons a l => rfl
        obtain rfl : ".txt".toList = ext := by simpa using hfp
        have hn1b : byExtLookup blobs ['.', 'p', 'd', 'f'] = none := hn1
        have hn2b : byExtLookup blobs ['.', 'd', 'o', 'c', 'x'] = none :=
          hn2
        have hlk2 : byExtLookup blobs ['.', 't', 'x', 't'] = some b0 := hlk
        have hp : 'r' :: 'a' :: 'w' :: '/' :: fid <+: b0 := by
          have := hpfx b0 hmem
          simpa using this
        refine ⟨b0, ?_, hext, hmem⟩
        simp [_find_blob_for_doc, prioritySelect, priorityExts, hne, hn1b,
          hn2b, hlk2, hp]
      | false =>
        simp only [List.find?_cons, h3] at hfp
        simp at hfp

theorem locator_priority_witness :
    firstPriorityExt ["raw/d1.txt".toList, "raw/d1.pdf".toList] =
        some ".pdf".toList ∧
      (∃ b, _find_blob_for_doc ["raw/d1.txt".toList, "raw/d1.pdf".toList]
          "d1".toList = some b ∧ extKeyOf b = ".pdf".toList ∧
        b ∈ ["raw/d1.txt".toList, "raw/d1.pdf".toList]) :=
  ⟨by decide,
    locator_priority _ _ _ (by decide) (by decide)⟩

/-- C9 counterexample: two listings that are permutations of each other,
containing the same two raw blobs with non-priority extensions, for
which the locator selects different blobs — the code indexes the listing
without sorting it. -/
theorem locator_order_counterexample :
    listingAB.Perm listingBA ∧
      (∀ b ∈ listingAB, extKeyOf b ∉ priorityExts) ∧
      _find_blob_for_doc listingAB "x".toList = some "raw/x.md".toList ∧
      _find_blob_for_doc listingBA "x".toList = some "raw/x.xml".toList ∧
      ("raw/x.md".toList : List Char) ≠ "raw/x.xml".toList := by
  refine ⟨by decide, by decide, by rfl, by rfl, by decide⟩

/-- C9 amended: when no listed blob has a priority extension, the
locator returns the first blob of the listing whose name starts with the
prefix — the head of the listing when all do — so the selected blob
depends on the order in which the storage backend lists the candidates
rather than being permutation-invariant. -/
theorem locator_returns_listing_head (blobs : List (List Char))
    (fid : List Char)
    (hnp : ∀ b ∈ blobs, blobs.any (fun x => extKeyOf x == extKeyOf b) =
      true → extKeyOf b ∉ priorityExts)
    (hpfx : ∀ b ∈ blobs, ("raw/".toList ++ fid).isPrefixOf b = true)
    (hne : blobs ≠ []) :
    _find_blob_for_doc blobs fid = blobs.head? := by
  have hno : ∀ e ∈ priorityExts,
      blobs.any (fun b => extKeyOf b == e) = false := by
    intro e he
    rw [List.any_eq_false]
    intro x hx
    simp only [beq_iff_eq]
    intro hxe
    exact hnp x hx (List.any_eq_true.mpr ⟨x, hx, by simp⟩) (hxe ▸ he)
  have h1 := byExtLookup_none_of_not_any blobs _
    (hno ".pdf".toList (by decide))
  have h2 := byExtLookup_none_of_not_any blobs _
    (hno ".docx".toList (by decide))
  have h3 := byExtLookup_none_of_not_any blobs _
    (hno ".txt".toList (by decide))
  cases blobs with
  | nil => exact absurd rfl hne
  | cons b bs =>
    have h1b : byExtLookup (b :: bs) ['.', 'p', 'd', 'f'] = none := h1
    have h2b : byExtLookup (b :: bs) ['.', 'd', 'o', 'c', 'x'] = none := h2
    have h3b : byExtLookup (b :: bs) ['.', 't', 'x', 't'] = none := h3
    have hf : List.find?
        (fun x => ('r' :: 'a' :: 'w' :: '/' :: fid).isPrefixOf x)
        (b :: bs) = some b :=
      List.find?_cons_of_pos _
        (by simpa using hpfx b (List.mem_cons_self b bs))
    simp [_find_blob_for_doc, prioritySelect, priorityExts, h1b, h2b,
      h3b, hf]

theorem locator_returns_listing_head_witness :
    _find_blob_for_doc listingAB "x".toList = listingAB.head? :=
  locator_returns_listing_head listingAB "x".toList (by decide) (by decide)
    (by decide)

/-- C4 counterexample: for a non-empty input, a fault during credential
acquisition propagates out of `analyze_text` — the call to
`_get_access_token()` sits outside the `try` block — so the Analysis
Client does raise instead of absorbing the failure. -/
theorem analyze_raises_counterexample :
    analyze_text sampleDocText tokenFailEnv = .error .otherExc ∧
      tokenFailEnv.tokenResult = .error .otherExc := by
  exact ⟨by rfl, rfl⟩

/-- C4 amended: for every input text, `analyze_text` returns a result
without raising provided credential acquisition succeeds and every fault
raised inside the `try` block belongs to a caught class
(`RequestException`, `KeyError`, `IndexError`, `JSONDecodeError`);
credential-acquisition faults, and `TypeError` from navigating a
non-subscriptable payload, propagate instead. -/
theorem analyze_absorbs_caught_faults (text : List Char) (env : GeminiEnv)
    (htok : env.tokenResult = .ok ())
    (hc : envFaultsCatchable env = true) :
    ∃ v, analyze_text text env = .ok v := by
  rcases env with ⟨tok, post, stat, json⟩
  simp only at htok
  subst htok
  cases hbe : (text.isEmpty || (pyStripL text).isEmpty) with
  | true => exact ⟨emptyDocResult, by simp [analyze_text, hbe]⟩
  | false =>
    cases hat : analyzeAttempt ⟨.ok (), post, stat, json⟩ with
    | ok v => exact ⟨v, by simp [analyze_text, hbe, hat]⟩
    | error e =>
      have hce : catchable e = true := by
        simp only [envFaultsCatchable] at hc
        simp only [analyzeAttempt] at hat
        cases post with
        | error e2 =>
          obtain rfl : e2 = e := by simpa using hat
          simp at hc
          exact hc.1.1
        | ok u =>
          cases stat with
          | error e2 =>
            obtain rfl : e2 = e := by simpa using hat
            simp at hc
            exact hc.1
          | ok u2 =>
            cases json with
            | error e2 =>
              obtain rfl : e2 = e := by simpa using hat
              simp at hc
              exact hc
            | ok body =>
              simp only at hat hc
              cases hg : getCandidateText body with
              | error e2 =>
                rw [hg] at hat hc
                obtain rfl : e2 = e := by simpa using hat
                simpa using hc
              | ok s =>
                rw [hg] at hat
                cases hjl : json_loads s with
                | some v => simp [hjl] at hat
                | none =>
                  simp [hjl] at hat
                  subst hat
                  rfl
      exact ⟨failureResult, by simp [analyze_text, hbe, hat, hce]⟩

theorem analyze_absorbs_caught_faults_witness :
    (⟨.ok (), .error .requestExc, .ok (),
        .ok (mkGeminiBody proseText)⟩ : GeminiEnv).tokenResult = .ok () ∧
      envFaultsCatchable ⟨.ok (), .error .requestExc, .ok (),
        .ok (mkGeminiBody proseText)⟩ = true ∧
      ∃ v, analyze_text sampleDocText ⟨.ok (), .error .requestExc, .ok (),
        .ok (mkGeminiBody proseText)⟩ = .ok v :=
  ⟨rfl, by rfl, analyze_absorbs_caught_faults _ _ rfl (by rfl)⟩

theorem status_update_no_state_witness :
    _update_status_in_db "w10" "processing" ⟨[]⟩ = ⟨[]⟩ ∧
      read_document_status ⟨[("processed/w10.json", JVal.jnull)]⟩ "w10" =
        read_document_status ⟨[("processed/w10.json", JVal.jbool true)]⟩
          "w10" :=
  ⟨status_update_no_state.1 _ _ _,
    status_update_no_state.2.2 _ _ "w10" rfl rfl⟩

/-! Lemmas about digit strings and the number parser. -/

theorem digit_ne_of_not_digit {c d : Char} (hc : isDigitC c = true)
    (hd : isDigitC d = false) : c ≠ d := by
  intro h
  subst h
  rw [hc] at hd
  cases hd

theorem digit_not_jsonWs {c : Char} (hc : isDigitC c = true) :
    isJsonWs c = false := by
  cases hw : isJsonWs c with
  | false => rfl
  | true =>
    exfalso
    simp only [isJsonWs, Bool.or_eq_true, decide_eq_true_eq] at hw
    rcases hw with ((h | h) | h) | h <;> subst h <;> simp [isDigitC] at hc

theorem skipWs_cons_not_ws {c : Char} {l : List Char}
    (h : isJsonWs c = false) : skipWs (c :: l) = c :: l := by
  simp [skipWs, List.dropWhile_cons, h]

theorem natDigitsAux_irrel : ∀ n f g, n < f → n < g →
    natDigitsAux f n = natDigitsAux g n := by
  intro n
  induction n using Nat.strong_induction_on with
  | _ n ihn =>
    intro f g hf hg
    cases f with
    | zero => omega
    | succ f =>
      cases g with
      | zero => omega
      | succ g =>
        rw [natDigitsAux, natDigitsAux]
        by_cases h10 : n < 10
        · simp [h10]
        · simp only [h10, if_false]
          have hlt : n / 10 < n := Nat.div_lt_self (by omega) (by omega)
          rw [ihn (n / 10) hlt f g (by omega) (by omega)]

theorem natDigits_unfold (n : Nat) :
    natDigits n = if n < 10 then [digitChar n]
      else natDigits (n / 10) ++ [digitChar (n % 10)] := by
  rw [natDigits, natDigitsAux]
  by_cases h10 : n < 10
  · simp [h10]
  · simp only [h10, if_false]
    have hlt : n / 10 < n := Nat.div_lt_self (by omega) (by omega)
    rw [natDigitsAux_irrel (n / 10) n (n / 10 + 1) hlt (Nat.lt_succ_self _)]
    rfl

theorem digitChar_isDigit {d : Nat} (h : d < 10) :
    isDigitC (digitChar d) = true := by
  interval_cases d <;> decide

theorem digitVal_digitChar {d : Nat} (h : d < 10) :
    digitVal (digitChar d) = d := by
  interval_cases d <;> decide

theorem digitChar_ne_zero {d : Nat} (h1 : 0 < d) (h2 : d < 10) :
    digitChar d ≠ '0' := by
  interval_cases d <;> decide

theorem natDigits_all_digit : ∀ n c, c ∈ natDigits n →
    isDigitC c = true := by
  intro n
  induction n using Nat.strong_induction_on with
  | _ n ihn =>
    intro c hc
    rw [natDigits_unfold] at hc
    by_cases h10 : n < 10
    · simp [h10] at hc
      subst hc
      exact digitChar_isDigit h10
    · simp only [h10, if_false, List.mem_append, List.mem_singleton] at hc
      rcases hc with hc | hc
      · exact ihn (n / 10) (Nat.div_lt_self (by omega) (by omega)) c hc
      · subst hc
        exact digitChar_isDigit (Nat.mod_lt _ (by omega))

theorem natDigits_ne_nil (n : Nat) : natDigits n ≠ [] := by
  rw [natDigits_unfold]
  by_cases h10 : n < 10 <;> simp [h10]

theorem natDigits_head_pos : ∀ n, 0 < n → ∀ c t, natDigits n = c :: t →
    c ≠ '0' ∧ isDigitC c = true := by
  intro n
  induction n using Nat.strong_induction_on with
  | _ n ihn =>
    intro hn c t hct
    rw [natDigits_unfold] at hct
    by_cases h10 : n < 10
    · simp only [h10, if_true, List.cons.injEq] at hct
      obtain ⟨rfl, rfl⟩ := hct
      exact ⟨digitChar_ne_zero hn h10, digitChar_isDigit h10⟩
    · simp only [h10, if_false] at hct
      cases hfr : natDigits (n / 10) with
      | nil => exact absurd hfr (natDigits_ne_nil _)
      | cons c2 t2 =>
        rw [hfr] at hct
        simp only [List.cons_append, List.cons.injEq] at hct
        obtain ⟨heq, _⟩ := hct
        have hdivpos : 0 < n / 10 := Nat.div_pos (by omega) (by omega)
        obtain ⟨h1, h2⟩ := ihn (n / 10)
          (Nat.div_lt_self (by omega) (by omega)) hdivpos c2 t2 hfr
        exact ⟨heq ▸ h1, heq ▸ h2⟩

theorem digitsToNat_append_digit (xs : List Char) (c : Char) :
    digitsToNat (xs ++ [c]) = 10 * digitsToNat xs + digitVal c := by
  simp only [digitsToNat, List.foldl_append, List.foldl]
  omega

theorem digitsToNat_natDigits : ∀ n, digitsToNat (natDigits n) = n := by
  intro n
  induction n using Nat.strong_induction_on with
  | _ n ihn =>
    rw [natDigits_unfold]
    by_cases h10 : n < 10
    · simp only [h10, if_true, digitsToNat, List.foldl]
      have := digitVal_digitChar h10
      omega
    · simp only [h10, if_false]
      rw [digitsToNat_append_digit,
        ihn (n / 10) (Nat.div_lt_self (by omega) (by omega)),
        digitVal_digitChar (Nat.mod_lt _ (by omega))]
      omega

theorem takeWhile_append_all {p : Char → Bool} :
    ∀ (ds rest : List Char), (∀ c ∈ ds, p c = true) →
      (∀ c, rest.head? = some c → p c = false) →
      (ds ++ rest).takeWhile p = ds ∧ (ds ++ rest).dropWhile p = rest := by
  intro ds
  induction ds with
  | nil =>
    intro rest h1 h2
    constructor
    · cases rest with
      | nil => rfl
      | cons r rs => simp [List.takeWhile_cons, h2 r rfl]
    · cases rest with
      | nil => rfl
      | cons r rs => simp [List.dropWhile_cons, h2 r rfl]
  | cons d ds ih =>
    intro rest h1 h2
    have hd : p d = true := h1 d (List.mem_cons_self d ds)
    obtain ⟨ht, hd2⟩ :=
      ih rest (fun c hc => h1 c (List.mem_cons_of_mem _ hc)) h2
    constructor
    · simp [List.takeWhile_cons, hd, ht]
    · simp [List.dropWhile_cons, hd, hd2]

theorem parseIntPart_natDigits (n : Nat) (rest : List Char)
    (hrest : ∀ c, rest.head? = some c → isDigitC c = false) :
    parseIntPart (natDigits n ++ rest) = some (n, rest) := by
  by_cases h0 : n = 0
  · subst h0
    rfl
  · cases hct : natDigits n with
    | nil => exact absurd hct (natDigits_ne_nil _)
    | cons c t =>
      obtain ⟨hc0, hcd⟩ := natDigits_head_pos n (by omega) c t hct
      have hall : ∀ x ∈ c :: t, isDigitC x = true := by
        rw [← hct]
        exact fun x hx => natDigits_all_digit n x hx
      obtain ⟨htake, hdrop⟩ := takeWhile_append_all (c :: t) rest hall hrest
      have hunf : parseIntPart (c :: t ++ rest) =
          if c = '0' then some (0, t ++ rest)
          else if isDigitC c then
            some (digitsToNat (List.takeWhile isDigitC (c :: t ++ rest)),
              List.dropWhile isDigitC (c :: t ++ rest))
          else none := rfl
      rw [hunf, if_neg hc0, if_pos hcd, htake, hdrop, ← hct,
        digitsToNat_natDigits]

theorem parseFracPart_skip {l : List Char}
    (h : ∀ c, l.head? = some c → c ≠ '.') : parseFracPart l = ([], l) := by
  unfold parseFracPart
  split
  · exact absurd rfl (h '.' rfl)
  · rfl

theorem parseExpPart_skip {l : List Char}
    (h : ∀ c, l.head? = some c → c ≠ 'e' ∧ c ≠ 'E') :
    parseExpPart l = ([], l) := by
  unfold parseExpPart
  split
  · rename_i c r
    obtain ⟨h1, h2⟩ := h c rfl
    simp [h1, h2]
  · rfl

theorem parseNumber_serInt (n : Int) (rest : List Char)
    (hrest : ∀ c, rest.head? = some c →
      isDigitC c = false ∧ c ≠ '.' ∧ c ≠ 'e' ∧ c ≠ 'E') :
    parseNumber (serInt n ++ rest) = some (.jnum n [], rest) := by
  have hint : parseIntPart (natDigits n.natAbs ++ rest) =
      some (n.natAbs, rest) :=
    parseIntPart_natDigits _ rest (fun c h => (hrest c h).1)
  have hfr : parseFracPart rest = ([], rest) :=
    parseFracPart_skip (fun c h => (hrest c h).2.1)
  have hex : parseExpPart rest = ([], rest) :=
    parseExpPart_skip (fun c h => ⟨(hrest c h).2.2.1, (hrest c h).2.2.2⟩)
  cases n with
  | ofNat m =>
    have hser : serInt (Int.ofNat m) = natDigits m := by
      simp [serInt]
    have hint2 : parseIntPart (natDigits m ++ rest) = some (m, rest) := hint
    rw [hser]
    cases hct : natDigits m with
    | nil => exact absurd hct (natDigits_ne_nil _)
    | cons c t =>
      have hcd : isDigitC c = true :=
        natDigits_all_digit m c (by rw [hct]; exact List.mem_cons_self _ _)
      have hcm : c ≠ '-' := digit_ne_of_not_digit hcd (by decide)
      rw [parseNumber.eq_def]
      split
      · rename_i r heq
        have h1 : c = '-' := by
          injection heq with ha hb
        exact absurd h1 hcm
      · have hgoal : c :: t ++ rest = natDigits m ++ rest := by
          rw [hct]
        rw [hgoal, hint2]
        simp only [hfr, hex]
        rfl
  | negSucc m =>
    have hser : serInt (Int.negSucc m) = '-' :: natDigits (m + 1) := by
      simp only [serInt, if_pos (by exact Int.negSucc_lt_zero m)]
      rfl
    have hint2 : parseIntPart (natDigits (m + 1) ++ rest) =
        some (m + 1, rest) := hint
    rw [hser, List.cons_append]
    rw [parseNumber.eq_def]
    split
    · rename_i r heq
      obtain rfl : natDigits (m + 1) ++ rest = r := by
        injection heq
      rw [hint2]
      simp only [hfr, hex]
      have hneg : -((m + 1 : Nat) : Int) = Int.negSucc m := by
        rw [Int.negSucc_eq]
        simp
      rw [hneg]
      rfl
    · rename_i hne
      exact (hne _ rfl).elim


/-! Lemmas about the string parser, serialization heads and
well-formedness. -/

theorem parseStrBody_plain : ∀ (s : List Char), s.all plainChar = true →
    ∀ rest, parseStrBody (s ++ qChar :: rest) = some (s, rest) := by
  intro s
  induction s with
  | nil =>
    intro _ rest
    show parseStrBody (qChar :: rest) = some ([], rest)
    rw [parseStrBody.eq_def]
    simp
  | cons c t ih =>
    intro hall rest
    simp only [List.all_cons, Bool.and_eq_true] at hall
    obtain ⟨hc, ht⟩ := hall
    have h1 : ¬(c = qChar) := fun he => by
      subst he
      exact absurd hc (by decide)
    have h2 : ¬(c = bsChar) := fun he => by
      subst he
      exact absurd hc (by decide)
    have h3 : ¬(c.toNat < 32) := by
      intro hlt
      simp [plainChar, hlt] at hc
    rw [List.cons_append]
    rw [parseStrBody.eq_def]
    simp only
    rw [if_neg h1, if_neg h2, if_neg h3, ih ht rest]

theorem serInt_negSucc (m : Nat) :
    serInt (Int.negSucc m) = '-' :: natDigits (m + 1) := by
  simp only [serInt, if_pos (Int.negSucc_lt_zero m)]
  rfl

theorem serVal_head_startOK (v : JVal) :
    ∃ c t, serVal v = c :: t ∧ startOK c = true := by
  cases v with
  | jnull => exact ⟨'n', _, rfl, by decide⟩
  | jbool b =>
    cases b with
    | false => exact ⟨'f', _, rfl, by decide⟩
    | true => exact ⟨'t', _, rfl, by decide⟩
  | jnan => exact ⟨'N', _, rfl, by decide⟩
  | jinf b =>
    cases b with
    | false => exact ⟨'I', _, rfl, by decide⟩
    | true => exact ⟨'-', _, rfl, by decide⟩
  | jnum n suf =>
    cases n with
    | ofNat m =>
      have hser : serInt (Int.ofNat m) = natDigits m := by simp [serInt]
      cases hct : natDigits m with
      | nil => exact absurd hct (natDigits_ne_nil m)
      | cons c t =>
        have hcd : isDigitC c = true := natDigits_all_digit m c
          (by rw [hct]; exact List.mem_cons_self _ _)
        refine ⟨c, t ++ suf, ?_, ?_⟩
        · show serInt (Int.ofNat m) ++ suf = c :: (t ++ suf)
          rw [hser, hct, List.cons_append]
        · simp [startOK, hcd]
    | negSucc m =>
      refine ⟨'-', natDigits (m + 1) ++ suf, ?_, by decide⟩
      show serInt (Int.negSucc m) ++ suf = _
      rw [serInt_negSucc, List.cons_append]
  | jstr s => exact ⟨qChar, _, rfl, by decide⟩
  | jarr xs => exact ⟨'[', _, rfl, by decide⟩
  | jobj fs => exact ⟨obChar, _, rfl, by decide⟩

theorem startOK_props {c : Char} (h : startOK c = true) :
    isJsonWs c = false ∧ c ≠ ']' ∧ c ≠ ',' ∧ c ≠ cbChar := by
  simp only [startOK, Bool.or_eq_true, decide_eq_true_eq] at h
  rcases h with ((((((((h | h) | h) | h) | h) | h) | h) | h) | h) | h
  all_goals first
    | (subst h; exact ⟨by decide, by decide, by decide, by decide⟩)
    | (exact ⟨digit_not_jsonWs h, digit_ne_of_not_digit h (by decide),
        digit_ne_of_not_digit h (by decide),
        digit_ne_of_not_digit h (by decide)⟩)

theorem wfListJ_mem : ∀ xs, wfListJ xs = true → ∀ x ∈ xs, wfJ x = true := by
  intro xs
  induction xs with
  | nil => intro _ x hx; cases hx
  | cons y ys ih =>
    intro h x hx
    simp only [wfListJ, Bool.and_eq_true] at h
    rcases List.mem_cons.mp hx with rfl | hx
    · exact h.1
    · exact ih h.2 x hx

theorem wfFieldsJ_mem : ∀ fs, wfFieldsJ fs = true →
    ∀ p ∈ fs, p.1.all plainChar = true ∧ wfJ p.2 = true := by
  intro fs
  induction fs with
  | nil => intro _ p hp; cases hp
  | cons q qs ih =>
    intro h p hp
    obtain ⟨k, v⟩ := q
    simp only [wfFieldsJ, Bool.and_eq_true] at h
    rcases List.mem_cons.mp hp with rfl | hp
    · exact ⟨h.1.1, h.1.2⟩
    · exact ih h.2 p hp

theorem jfuel_pos (v : JVal) : 1 ≤ jfuel v := by
  cases v <;> simp [jfuel] <;> omega

theorem jval_sizeOf_pos (v : JVal) : 1 ≤ sizeOf v := by
  cases v <;> simp_arith

theorem sizeOf_elem_lt_jarr {xs : List JVal} {x : JVal} (h : x ∈ xs) :
    sizeOf x < sizeOf (JVal.jarr xs) := by
  have h1 := List.sizeOf_lt_of_mem h
  have h3 : sizeOf (JVal.jarr xs) = 1 + sizeOf xs := by simp
  omega

theorem sizeOf_val_lt_jobj {fs : List (List Char × JVal)} {k : List Char}
    {v : JVal} (h : (k, v) ∈ fs) : sizeOf v < sizeOf (JVal.jobj fs) := by
  have h1 := List.sizeOf_lt_of_mem h
  have h2 : sizeOf (k, v) = 1 + sizeOf k + sizeOf v := by simp
  have h3 : sizeOf (JVal.jobj fs) = 1 + sizeOf fs := by simp
  omega

theorem take8_ne_infinity {c : Char} (hcd : isDigitC c = true)
    (t : List Char) :
    ¬((c :: t).take 8 = ['I', 'n', 'f', 'i', 'n', 'i', 't', 'y']) := by
  intro hc
  simp only [List.take, List.cons.injEq] at hc
  exact absurd hc.1 (digit_ne_of_not_digit hcd (by decide))

theorem numRestOK_cons {v : JVal} {c : Char} {rest : List Char}
    (h : isDigitC c = false ∧ c ≠ '.' ∧ c ≠ 'e' ∧ c ≠ 'E') :
    numRestOK v (c :: rest) := by
  cases v <;> first
    | trivial
    | (intro c2 hc2
       obtain rfl : c = c2 := by simpa using hc2
       exact h)

theorem numRestOK_nil (v : JVal) : numRestOK v [] := by
  cases v <;> first
    | trivial
    | exact fun c hc => by cases hc

theorem elemsFuel_pos (xs : List JVal) : 1 ≤ elemsFuel xs := by
  cases xs <;> simp [elemsFuel] <;> omega

theorem fieldsFuel_pos (fs : List (List Char × JVal)) :
    1 ≤ fieldsFuel fs := by
  cases fs with
  | nil => simp [fieldsFuel]
  | cons p ps =>
    obtain ⟨k, v⟩ := p
    simp [fieldsFuel]
    omega

theorem serElemsList_shape (z : JVal) (zs : List JVal) :
    ∃ tl, serElemsList (z :: zs) = serVal z ++ tl := by
  cases zs with
  | nil => exact ⟨[], by simp [serElemsList]⟩
  | cons w ws => exact ⟨',' :: serElemsList (w :: ws), rfl⟩

theorem serFieldsList_shape (k : List Char) (v : JVal)
    (gs : List (List Char × JVal)) :
    ∃ tl, serFieldsList ((k, v) :: gs) =
      qChar :: (k ++ qChar :: ':' :: (serVal v ++ tl)) := by
  cases gs with
  | nil =>
    refine ⟨[], ?_⟩
    show qChar :: k ++ qChar :: ':' :: serVal v = _
    simp
  | cons q qs =>
    refine ⟨',' :: serFieldsList (q :: qs), ?_⟩
    show qChar :: k ++ qChar :: ':' :: serVal v ++
      ',' :: serFieldsList (q :: qs) = _
    simp

/-- Round trip of the value parser over the serializer: parsing the
serialization of any well-formed JSON value, given enough fuel, returns
the value and the untouched remainder. -/
theorem parseVal_serVal :
    ∀ N v, sizeOf v ≤ N → wfJ v = true →
      ∀ f rest, jfuel v ≤ f → numRestOK v rest →
        parseVal f (serVal v ++ rest) = some (v, rest) := by
  intro N
  induction N with
  | zero =>
    intro v hv
    exact absurd hv (by have := jval_sizeOf_pos v; omega)
  | succ N ih =>
    intro v hv hwf f rest hf hnum
    obtain ⟨f, rfl⟩ : ∃ g, f = g + 1 := by
      have := jfuel_pos v
      exact ⟨f - 1, by omega⟩
    cases v with
    | jnull =>
      show parseVal (f + 1) (['n', 'u', 'l', 'l'] ++ rest) =
        some (.jnull, rest)
      rw [parseVal.eq_def]
      simp +decide [skipWs, List.dropWhile, isJsonWs]
    | jbool b =>
      cases b with
      | true =>
        show parseVal (f + 1) (['t', 'r', 'u', 'e'] ++ rest) =
          some (.jbool true, rest)
        rw [parseVal.eq_def]
        simp +decide [skipWs, List.dropWhile, isJsonWs]
      | false =>
        show parseVal (f + 1) (['f', 'a', 'l', 's', 'e'] ++ rest) =
          some (.jbool false, rest)
        rw [parseVal.eq_def]
        simp +decide [skipWs, List.dropWhile, isJsonWs]
    | jnan => simp [wfJ] at hwf
    | jinf b => simp [wfJ] at hwf
    | jnum n suf =>
      have hsuf : suf = [] := by simpa [wfJ] using hwf
      subst hsuf
      have hser : serVal (.jnum n []) = serInt n := by simp [serVal]
      rw [hser, parseVal.eq_def]
      simp only
      cases n with
      | ofNat m =>
        have hs2 : serInt (Int.ofNat m) = natDigits m := by simp [serInt]
        rw [hs2]
        cases hct : natDigits m with
        | nil => exact absurd hct (natDigits_ne_nil m)
        | cons c t =>
          have hcd : isDigitC c = true := natDigits_all_digit m c
            (by rw [hct]; exact List.mem_cons_self _ _)
          rw [List.cons_append, skipWs_cons_not_ws (digit_not_jsonWs hcd)]
          simp only
          rw [if_neg (digit_ne_of_not_digit hcd (by decide)),
            if_neg (digit_ne_of_not_digit hcd (by decide)),
            if_neg (digit_ne_of_not_digit hcd (by decide)),
            if_neg (digit_ne_of_not_digit hcd (by decide)),
            if_neg (digit_ne_of_not_digit hcd (by decide)),
            if_neg (digit_ne_of_not_digit hcd (by decide)),
            if_neg (digit_ne_of_not_digit hcd (by decide)),
            if_neg (digit_ne_of_not_digit hcd (by decide)),
            if_neg (digit_ne_of_not_digit hcd (by decide)),
            if_pos hcd, ← List.cons_append, ← hct, ← hs2]
          exact parseNumber_serInt _ rest (fun c2 h2 => hnum c2 h2)
      | negSucc m =>
        rw [serInt_negSucc, List.cons_append,
          skipWs_cons_not_ws (by decide)]
        simp only
        rw [if_neg (by decide), if_neg (by decide), if_neg (by decide),
          if_neg (by decide), if_neg (by decide), if_neg (by decide),
          if_neg (by decide), if_neg (by decide), if_pos trivial]
        cases hct : natDigits (m + 1) with
        | nil => exact absurd hct (natDigits_ne_nil _)
        | cons c t =>
          have hcd : isDigitC c = true := natDigits_all_digit (m + 1) c
            (by rw [hct]; exact List.mem_cons_self _ _)
          rw [List.cons_append, if_neg (take8_ne_infinity hcd _),
            ← List.cons_append, ← hct, ← List.cons_append,
            ← serInt_negSucc]
          exact parseNumber_serInt _ rest (fun c2 h2 => hnum c2 h2)
    | jstr s =>
      have hplain : s.all plainChar = true := by simpa [wfJ] using hwf
      have hshape : serVal (.jstr s) ++ rest =
          qChar :: (s ++ qChar :: rest) := by
        show (qChar :: s ++ [qChar]) ++ rest = _
        simp
      rw [hshape, parseVal.eq_def]
      simp only
      rw [skipWs_cons_not_ws (by decide)]
      simp only
      rw [if_pos trivial, parseStrBody_plain s hplain rest]
    | jarr xs =>
      have hwfl : wfListJ xs = true := by simpa [wfJ] using hwf
      have hfx : 1 + elemsFuel xs ≤ f := by
        have hj : jfuel (.jarr xs) = 2 + elemsFuel xs := by simp [jfuel]
        omega
      have hloop : ∀ (ys : List JVal), ys ≠ [] → wfListJ ys = true →
          (∀ y ∈ ys, sizeOf y ≤ N) →
          ∀ g r2, elemsFuel ys ≤ g →
            parseElems g (serElemsList ys ++ ']' :: r2) = some (ys, r2) := by
        intro ys
        induction ys with
        | nil => intro h; exact absurd rfl h
        | cons y ys2 ihy =>
          intro _ hwfy hsz g r2 hg
          simp only [elemsFuel] at hg
          obtain ⟨g, rfl⟩ : ∃ g2, g = g2 + 1 := ⟨g - 1, by omega⟩
          have hwy : wfJ y = true :=
            wfListJ_mem _ hwfy y (List.mem_cons_self _ _)
          have hjy : jfuel y ≤ g := by omega
          have hsy : sizeOf y ≤ N := hsz y (List.mem_cons_self _ _)
          cases ys2 with
          | nil =>
            show parseElems (g + 1) (serVal y ++ ']' :: r2) =
              some ([y], r2)
            rw [parseElems.eq_def]
            simp only
            rw [ih y hsy hwy g (']' :: r2) hjy (numRestOK_cons (by decide))]
            simp only
            rw [skipWs_cons_not_ws (by decide)]
            simp
          | cons z zs =>
            show parseElems (g + 1)
              ((serVal y ++ ',' :: serElemsList (z :: zs)) ++ ']' :: r2) =
              some (y :: z :: zs, r2)
            rw [List.append_assoc, List.cons_append]
            rw [parseElems.eq_def]
            simp only
            rw [ih y hsy hwy g _ hjy (numRestOK_cons (by decide))]
            simp only
            rw [skipWs_cons_not_ws (by decide)]
            simp only [List.head?_cons, List.tail_cons]
            rw [if_pos trivial]
            obtain ⟨tl, htl⟩ := serElemsList_shape z zs
            obtain ⟨c2, t2, hct2, hok2⟩ := serVal_head_startOK z
            have hzshape : serElemsList (z :: zs) ++ ']' :: r2 =
                c2 :: (t2 ++ tl ++ ']' :: r2) := by
              rw [htl, hct2]
              simp
            rw [hzshape, skipWs_cons_not_ws (startOK_props hok2).1,
              ← hzshape]
            rw [ihy (by simp) (by
                simp only [wfListJ, Bool.and_eq_true] at hwfy ⊢
                exact hwfy.2)
              (fun w hw => hsz w (List.mem_cons_of_mem _ hw)) g r2
              (by omega)]
      cases xs with
      | nil =>
        have hshape : serVal (.jarr ([] : List JVal)) ++ rest =
            '[' :: ']' :: rest := by
          show ('[' :: serElemsList [] ++ [']']) ++ rest = _
          simp [serElemsList]
        rw [hshape, parseVal.eq_def]
        simp only
        rw [skipWs_cons_not_ws (by decide)]
        simp only
        rw [if_neg (by decide), if_neg (by decide), if_pos trivial,
          skipWs_cons_not_ws (by decide)]
        obtain ⟨f, rfl⟩ : ∃ g2, f = g2 + 1 :=
          ⟨f - 1, by have := elemsFuel_pos ([] : List JVal); omega⟩
        rw [parseArrBody.eq_def]
        simp
      | cons x xs2 =>
        have hshape : serVal (.jarr (x :: xs2)) ++ rest =
            '[' :: (serElemsList (x :: xs2) ++ ']' :: rest) := by
          show ('[' :: serElemsList (x :: xs2) ++ [']']) ++ rest = _
          simp
        rw [hshape, parseVal.eq_def]
        simp only
        rw [skipWs_cons_not_ws (by decide)]
        simp only
        rw [if_neg (by decide), if_neg (by decide), if_pos trivial]
        obtain ⟨tl, htl⟩ := serElemsList_shape x xs2
        obtain ⟨c2, t2, hct2, hok2⟩ := serVal_head_startOK x
        have hxshape : serElemsList (x :: xs2) ++ ']' :: rest =
            c2 :: (t2 ++ tl ++ ']' :: rest) := by
          rw [htl, hct2]
          simp
        obtain ⟨hws2, hne2a, hne2b, hne2c⟩ := startOK_props hok2
        rw [hxshape, skipWs_cons_not_ws hws2, ← hxshape]
        obtain ⟨f, rfl⟩ : ∃ g2, f = g2 + 1 :=
          ⟨f - 1, by have := elemsFuel_pos (x :: xs2); omega⟩
        rw [parseArrBody.eq_def]
        simp only
        rw [if_neg (by rw [hxshape]; simp [hne2a])]
        rw [hloop (x :: xs2) (by simp) hwfl
          (fun y hy => by
            have := sizeOf_elem_lt_jarr hy
            omega)
          f rest (by omega)]
    | jobj fs =>
      have hwfl : wfFieldsJ fs = true := by simpa [wfJ] using hwf
      have hfx : 1 + fieldsFuel fs ≤ f := by
        have hj : jfuel (.jobj fs) = 2 + fieldsFuel fs := by simp [jfuel]
        omega
      have hloop : ∀ (gs : List (List Char × JVal)), gs ≠ [] →
          wfFieldsJ gs = true → (∀ p ∈ gs, sizeOf p.2 ≤ N) →
          ∀ g r2, fieldsFuel gs ≤ g →
            parseMembers g (serFieldsList gs ++ cbChar :: r2) =
              some (gs, r2) := by
        intro gs
        induction gs with
        | nil => intro h; exact absurd rfl h
        | cons q qs ihq =>
          obtain ⟨k, y⟩ := q
          intro _ hwfq hsz g r2 hg
          simp only [fieldsFuel] at hg
          obtain ⟨g, rfl⟩ : ∃ g2, g = g2 + 1 := ⟨g - 1, by omega⟩
          simp only [wfFieldsJ, Bool.and_eq_true] at hwfq
          have hky : k.all plainChar = true := hwfq.1.1
          have hwy : wfJ y = true := hwfq.1.2
          have hjy : jfuel y ≤ g := by omega
          have hsy : sizeOf y ≤ N := hsz (k, y) (List.mem_cons_self _ _)
          obtain ⟨tl, htl⟩ := serFieldsList_shape k y qs
          have hin : serFieldsList ((k, y) :: qs) ++ cbChar :: r2 =
              qChar :: (k ++ qChar :: (':' :: (serVal y ++
                (tl ++ cbChar :: r2)))) := by
            rw [htl]
            simp
          rw [hin, parseMembers.eq_def]
          simp only [List.head?_cons, List.tail_cons]
          rw [if_pos trivial]
          rw [parseStrBody_plain k hky _]
          simp only
          rw [skipWs_cons_not_ws (by decide)]
          simp only [List.head?_cons, List.tail_cons]
          rw [if_pos trivial]
          cases qs with
          | nil =>
            have htl2 : tl = [] := by
              have := htl
              rw [show serFieldsList [(k, y)] =
                qChar :: k ++ qChar :: ':' :: serVal y from rfl] at this
              simp at this
              exact this
            subst htl2
            rw [List.nil_append]
            rw [ih y hsy hwy g (cbChar :: r2) hjy
              (numRestOK_cons (by decide))]
            simp only
            rw [skipWs_cons_not_ws (by decide)]
            simp only [List.head?_cons, List.tail_cons]
            rw [if_neg (by decide), if_pos trivial]
          | cons q2 qs2 =>
            have htl2 : tl = ',' :: serFieldsList (q2 :: qs2) := by
              obtain ⟨k2, y2⟩ := q2
              have h2 := serFieldsList_shape k y ((k2, y2) :: qs2)
              obtain ⟨tl2, htl3⟩ := h2
              rw [htl3] at htl
              have heq := htl
              simp at heq
              rw [show serFieldsList ((k, y) :: (k2, y2) :: qs2) =
                qChar :: k ++ qChar :: ':' :: serVal y ++
                  ',' :: serFieldsList ((k2, y2) :: qs2) from rfl] at htl3
              simp at htl3
              rw [← heq, htl3]
            subst htl2
            rw [List.cons_append]
            rw [ih y hsy hwy g _ hjy (numRestOK_cons (by decide))]
            simp only
            rw [skipWs_cons_not_ws (by decide)]
            simp only [List.head?_cons, List.tail_cons]
            rw [if_pos trivial]
            obtain ⟨k2, y2⟩ := q2
            obtain ⟨tl3, htl4⟩ := serFieldsList_shape k2 y2 qs2
            have hqshape : serFieldsList ((k2, y2) :: qs2) ++ cbChar :: r2 =
                qChar :: ((k2 ++ qChar :: ':' :: (serVal y2 ++ tl3)) ++
                  cbChar :: r2) := by
              rw [htl4]
              simp
            rw [hqshape, skipWs_cons_not_ws (by decide), ← hqshape]
            rw [ihq (by simp) hwfq.2
              (fun p hp => hsz p (List.mem_cons_of_mem _ hp)) g r2
              (by omega)]
      cases fs with
      | nil =>
        have hshape : serVal (.jobj ([] : List (List Char × JVal))) ++
            rest = obChar :: cbChar :: rest := by
          show (obChar :: serFieldsList [] ++ [cbChar]) ++ rest = _
          simp [serFieldsList]
        rw [hshape, parseVal.eq_def]
        simp only
        rw [skipWs_cons_not_ws (by decide)]
        simp only
        rw [if_neg (by decide), if_pos trivial,
          skipWs_cons_not_ws (by decide)]
        obtain ⟨f, rfl⟩ : ∃ g2, f = g2 + 1 :=
          ⟨f - 1, by
            have := fieldsFuel_pos ([] : List (List Char × JVal))
            omega⟩
        rw [parseObjBody.eq_def]
        simp
      | cons q qs =>
        obtain ⟨k, y⟩ := q
        have hshape : serVal (.jobj ((k, y) :: qs)) ++ rest =
            obChar :: (serFieldsList ((k, y) :: qs) ++ cbChar :: rest) := by
          show (obChar :: serFieldsList ((k, y) :: qs) ++ [cbChar]) ++
            rest = _
          simp
        rw [hshape, parseVal.eq_def]
        simp only
        rw [skipWs_cons_not_ws (by decide)]
        simp only
        rw [if_neg (by decide), if_pos trivial]
        obtain ⟨tl, htl⟩ := serFieldsList_shape k y qs
        have hqshape : serFieldsList ((k, y) :: qs) ++ cbChar :: rest =
            qChar :: ((k ++ qChar :: ':' :: (serVal y ++ tl)) ++
              cbChar :: rest) := by
          rw [htl]
          simp
        rw [hqshape, skipWs_cons_not_ws (by decide), ← hqshape]
        obtain ⟨f, rfl⟩ : ∃ g2, f = g2 + 1 :=
          ⟨f - 1, by have := fieldsFuel_pos ((k, y) :: qs); omega⟩
        rw [parseObjBody.eq_def]
        simp only
        rw [if_neg (by rw [hqshape]; simp; decide)]
        rw [hloop ((k, y) :: qs) (by simp) hwfl
          (fun p hp => by
            obtain ⟨k3, y3⟩ := p
            show sizeOf y3 ≤ N
            have := sizeOf_val_lt_jobj hp
            omega)
          f rest (by omega)]

theorem serVal_length_pos (v : JVal) : 1 ≤ (serVal v).length := by
  obtain ⟨c, t, hct, _⟩ := serVal_head_startOK v
  rw [hct]
  simp

theorem jfuel_le_serVal_length :
    ∀ N v, sizeOf v ≤ N → jfuel v ≤ 4 * (serVal v).length := by
  intro N
  induction N with
  | zero =>
    intro v hv
    exact absurd hv (by have := jval_sizeOf_pos v; omega)
  | succ N ihN =>
    intro v hv
    cases v with
    | jnull =>
      have h := serVal_length_pos JVal.jnull
      simp only [jfuel]
      omega
    | jbool b =>
      have h := serVal_length_pos (JVal.jbool b)
      simp only [jfuel]
      omega
    | jnan =>
      have h := serVal_length_pos JVal.jnan
      simp only [jfuel]
      omega
    | jinf b =>
      have h := serVal_length_pos (JVal.jinf b)
      simp only [jfuel]
      omega
    | jnum n suf =>
      have h := serVal_length_pos (JVal.jnum n suf)
      simp only [jfuel]
      omega
    | jstr str =>
      have h := serVal_length_pos (JVal.jstr str)
      simp only [jfuel]
      omega
    | jarr xs =>
      have hsz : ∀ x ∈ xs, sizeOf x ≤ N := fun x hx => by
        have := sizeOf_elem_lt_jarr hx
        omega
      have helems : ∀ (ys : List JVal), (∀ y ∈ ys, sizeOf y ≤ N) →
          elemsFuel ys ≤ 4 * (serElemsList ys).length + 2 := by
        intro ys
        induction ys with
        | nil => intro _; simp [elemsFuel, serElemsList]
        | cons y ys2 ihy =>
          intro hm
          have h1 := ihN y (hm y (List.mem_cons_self _ _))
          have h2 := ihy (fun w hw => hm w (List.mem_cons_of_mem _ hw))
          cases ys2 with
          | nil =>
            simp only [elemsFuel, serElemsList]
            have := serVal_length_pos y
            omega
          | cons z zs =>
            simp only [elemsFuel, serElemsList, List.length_append,
              List.length_cons] at h2 ⊢
            omega
      have h1 := helems xs hsz
      have h2 : (serVal (.jarr xs)).length = (serElemsList xs).length + 2 := by
        show ('[' :: serElemsList xs ++ [']']).length = _
        simp
      have h3 : jfuel (.jarr xs) = 2 + elemsFuel xs := by simp [jfuel]
      omega
    | jobj fs =>
      have hsz : ∀ p ∈ fs, sizeOf p.2 ≤ N := fun p hp => by
        obtain ⟨k3, y3⟩ := p
        show sizeOf y3 ≤ N
        have := sizeOf_val_lt_jobj hp
        omega
      have hfields : ∀ (gs : List (List Char × JVal)),
          (∀ p ∈ gs, sizeOf p.2 ≤ N) →
          fieldsFuel gs ≤ 4 * (serFieldsList gs).length + 2 := by
        intro gs
        induction gs with
        | nil => intro _; simp [fieldsFuel, serFieldsList]
        | cons q qs2 ihq =>
          obtain ⟨k, y⟩ := q
          intro hm
          have h1 := ihN y (hm (k, y) (List.mem_cons_self _ _))
          have h2 := ihq (fun w hw => hm w (List.mem_cons_of_mem _ hw))
          cases qs2 with
          | nil =>
            simp only [fieldsFuel, serFieldsList, List.length_cons,
              List.length_append]
            have := serVal_length_pos y
            omega
          | cons q2 qs3 =>
            obtain ⟨k2, y2⟩ := q2
            simp only [fieldsFuel, serFieldsList, List.length_append,
              List.length_cons] at h2 ⊢
            omega
      have h1 := hfields fs hsz
      have h2 : (serVal (.jobj fs)).length =
          (serFieldsList fs).length + 2 := by
        show (obChar :: serFieldsList fs ++ [cbChar]).length = _
        simp
      have h3 : jfuel (.jobj fs) = 2 + fieldsFuel fs := by simp [jfuel]
      omega

/-- Parsing the serialization of a well-formed value with the fuel used
by `json_loads` recovers the value exactly. -/
theorem json_loads_serVal (v : JVal) (hwf : wfJ v = true) :
    json_loads (serVal v) = some v := by
  have hfuel : jfuel v ≤ 4 * (serVal v).length + 4 := by
    have := jfuel_le_serVal_length (sizeOf v) v le_rfl
    omega
  have hp := parseVal_serVal (sizeOf v) v le_rfl hwf
    (4 * (serVal v).length + 4) [] hfuel (numRestOK_nil v)
  rw [show serVal v ++ ([] : List Char) = serVal v from by simp] at hp
  rw [json_loads, hp]
  rfl

theorem parseVal_backtick (f : Nat) (l : List Char) :
    parseVal f (btChar :: l) = none := by
  cases f with
  | zero => rfl
  | succ f =>
    rw [parseVal.eq_def]
    simp only
    rw [skipWs_cons_not_ws (by decide)]
    simp only
    rw [if_neg (by decide), if_neg (by decide), if_neg (by decide),
      if_neg (by decide), if_neg (by decide), if_neg (by decide),
      if_neg (by decide), if_neg (by decide), if_neg (by decide),
      if_neg (by decide)]

/-- Any text wrapped in a fenced block is rejected by `json.loads`: the
parser fails on the leading backtick. -/
theorem json_loads_fence (s : List Char) : json_loads (fenceWrap s) = none := by
  have h1 : parseVal (4 * (fenceWrap s).length + 4) (fenceWrap s) = none := by
    rw [show fenceWrap s = btChar ::
      (([btChar, btChar, 'j', 's', 'o', 'n', '\n'] ++ s) ++ fenceClose)
      from rfl]
    exact parseVal_backtick _ _
  rw [json_loads, h1]

theorem getCandidateText_mkBody (s : List Char) :
    getCandidateText (mkGeminiBody s) = .ok s := rfl

/-- Behaviour of `analyze_text` under a fully successful exchange: the
result is exactly what `json.loads` makes of the candidate text, with the
failure default when parsing fails. -/
theorem analyze_happy (t : List Char)
    (hne : (t.isEmpty || (pyStripL t).isEmpty) = false) (s : List Char) :
    analyze_text t (happyGeminiEnv s) =
      match json_loads s with
      | some v => .ok v
      | none => .ok failureResult := by
  simp only [analyze_text, hne, Bool.false_eq_true, if_false,
    happyGeminiEnv, analyzeAttempt, getCandidateText_mkBody]
  cases json_loads s <;> rfl

/-- C2 counterexample: the raw LLM text wrapping a well-formed analysis
object in a JSON-tagged fenced block is not recovered — the coercion step
returns the fixed failure result, which is neither the wrapped object nor
the all-empty default schema the spec promises for unrecoverable text. -/
theorem coercion_fenced_counterexample :
    analyze_text sampleDocText
        (happyGeminiEnv (fenceWrap (serVal sampleAnalysis))) =
      .ok failureResult ∧
      failureResult ≠ sampleAnalysis ∧
      failureResult ≠ specAllEmptyResult := by
  refine ⟨by rfl, ?_, ?_⟩
  · intro h
    exact absurd (congrArg summaryTextOf h) (by decide)
  · intro h
    exact absurd (congrArg summaryTextOf h) (by decide)

/-- C2 amended: the result coercion step recovers a JSON object exactly
when the entire candidate text is its serialization; fenced-wrapped
objects, and any text `json.loads` rejects, yield the fixed failure
result (`summary` = "Failed to analyze document.", empty lists), not the
all-empty default schema. -/
theorem coercion_whole_text_only :
    (∀ v, wfJ v = true →
      analyze_text sampleDocText (happyGeminiEnv (serVal v)) = .ok v) ∧
      (∀ v, analyze_text sampleDocText
        (happyGeminiEnv (fenceWrap (serVal v))) = .ok failureResult) ∧
      (∀ s, json_loads s = none →
        analyze_text sampleDocText (happyGeminiEnv s) =
          .ok failureResult) := by
  have hne : (sampleDocText.isEmpty || (pyStripL sampleDocText).isEmpty) =
      false := by decide
  refine ⟨?_, ?_, ?_⟩
  · intro v hwf
    rw [analyze_happy _ hne, json_loads_serVal v hwf]
  · intro v
    rw [analyze_happy _ hne, json_loads_fence]
  · intro s hs
    rw [analyze_happy _ hne, hs]

theorem coercion_whole_text_only_witness :
    wfJ sampleAnalysis = true ∧
      analyze_text sampleDocText (happyGeminiEnv (serVal sampleAnalysis)) =
        .ok sampleAnalysis ∧
      analyze_text sampleDocText
        (happyGeminiEnv (fenceWrap (serVal sampleAnalysis))) =
        .ok failureResult ∧
      json_loads proseText = none ∧
      analyze_text sampleDocText (happyGeminiEnv proseText) =
        .ok failureResult := by
  have h : json_loads proseText = none := by rfl
  exact ⟨by decide, coercion_whole_text_only.1 _ (by decide),
    coercion_whole_text_only.2.1 _, h, coercion_whole_text_only.2.2 _ h⟩

/-- C3 counterexample: an LLM response whose text is the JSON object with
the single key `foo` is returned verbatim by `analyze_text` — the result
does not have the four required keys, so the claimed schema invariant
fails for this reachable result. -/
theorem schema_counterexample :
    analyze_text sampleDocText (happyGeminiEnv fooText) =
      .ok (.jobj [("foo".toList, .jnum 1 [])]) ∧
      schemaOK (.jobj [("foo".toList, .jnum 1 [])]) = false := by
  exact ⟨by rfl, by rfl⟩

/-- C3 amended: every result of `analyze_text` either satisfies the
four-key schema (the short-circuit and failure defaults do) or is exactly
the JSON value `json.loads` produced from the candidate text, passed
through without any validation or normalization. -/
theorem analysis_results_unvalidated (text : List Char) (env : GeminiEnv)
    (v : JVal) (h : analyze_text text env = .ok v) :
    schemaOK v = true ∨
      ∃ s, llmCandidateText env = some s ∧ json_loads s = some v := by
  rcases env with ⟨tok, post, stat, json⟩
  cases hbe : (text.isEmpty || (pyStripL text).isEmpty) with
  | true =>
    left
    simp [analyze_text, hbe] at h
    rw [← h]
    decide
  | false =>
    cases tok with
    | error e => simp [analyze_text, hbe] at h
    | ok u =>
      cases hat : analyzeAttempt ⟨.ok u, post, stat, json⟩ with
      | error e =>
        cases hc : catchable e with
        | true =>
          left
          simp [analyze_text, hbe, hat, hc] at h
          rw [← h]
          decide
        | false => simp [analyze_text, hbe, hat, hc] at h
      | ok w =>
        right
        have hv : w = v := by
          simp [analyze_text, hbe, hat] at h
          exact h
        subst hv
        unfold analyzeAttempt at hat
        cases post with
        | error e => simp at hat
        | ok u2 =>
          cases stat with
          | error e => simp at hat
          | ok u3 =>
            cases json with
            | error e => simp at hat
            | ok body =>
              simp only at hat
              cases hg : getCandidateText body with
              | error e =>
                rw [hg] at hat
                simp at hat
              | ok s =>
                rw [hg] at hat
                simp only at hat
                cases hjl : json_loads s with
                | none =>
                  rw [hjl] at hat
                  simp at hat
                | some w2 =>
                  rw [hjl] at hat
                  have hw2 : w2 = w := by simpa using hat
                  subst hw2
                  exact ⟨s, by simp [llmCandidateText, hg], hjl⟩

theorem analysis_results_unvalidated_witness :
    analyze_text sampleDocText (happyGeminiEnv fooText) =
        .ok (.jobj [("foo".toList, .jnum 1 [])]) ∧
      (schemaOK (.jobj [("foo".toList, .jnum 1 [])]) = true ∨
        ∃ s, llmCandidateText (happyGeminiEnv fooText) = some s ∧
          json_loads s = some (.jobj [("foo".toList, .jnum 1 [])])) :=
  ⟨by rfl, analysis_results_unvalidated sampleDocText
    (happyGeminiEnv fooText) (.jobj [("foo".toList, .jnum 1 [])])
    (by rfl)⟩

end LegalAI